import Mathlib

/-!
Verification of the `ipaddr` CIDR-prefix library (Go, github.com/mikioh/ipaddr).

The library manipulates IP address prefixes as fixed-width machine integers
tagged with a prefix length: IPv4 prefixes are a 32-bit address plus `nbits`,
IPv6 prefixes are a 128-bit address (stored as two 64-bit limbs) plus `nbits`.
The IPv4 and IPv6 implementations (`ipv4.go`, `ipv6.go`) are textually
parallel, differing only in the address width and in the limb representation
of the 128-bit integers.  We therefore embed the per-prefix operations once,
over an arbitrary width `w` with addresses as `Nat` (reduced modulo `2^w` where
the Go code relies on fixed-width wraparound), and instantiate them at `w = 32`
and `w = 128`.  The two-limb IPv6 arithmetic from `helper.go` / `ipv6.go` is
embedded separately, and refinement lemmas prove that it matches the width-128
instance, so the generic functions are faithful to both families.

Fallible or partial Go code is embedded with `Option`: `none` models a path
with no normal return (a `panic`, or a loop that cannot terminate), while
`some []` models a normal return of an empty (`nil`) slice.  Loops that have
no structurally decreasing argument are written with an explicit fuel that
provably dominates the iteration count on every terminating run of the Go
code, so `none` by fuel exhaustion occurs exactly on the diverging runs.
-/

namespace Ipaddr

/-! ## Width-generic core

Embeds the address arithmetic of `helper.go` and the per-prefix operations of
`ipv4.go` (IPv6 is the same code at width 128; see the refinement section).
-/

/-- Go `mask32`/`mask64` (`helper.go`): `-uint32(1 << uint(32-nbits))`.
For `n ≤ w` the shifted bit is in range and two's-complement negation gives
`2^w - 2^(w-n)`; for `n > w` the Go shift count underflows to a huge unsigned
value, the shift result is `0`, and the negation gives `0`. -/
def gmask (w n : Nat) : Nat :=
  if n ≤ w then 2 ^ w - 2 ^ (w - n) else 0

/-- Go `^mask32(nbits)`: bitwise complement inside `w` bits. -/
def ghostmask (w n : Nat) : Nat :=
  (2 ^ w - 1) ^^^ gmask w n

/-- An address prefix: a prefix length `nbits` and an address `addr`,
as in the Go structs `IPv4`/`IPv6` (family and width are kept outside). -/
structure Pfx where
  nbits : Nat
  addr : Nat
deriving DecidableEq, Repr

/-- Well-formedness of a stored prefix at width `w`: the length is within the
family width, the address fits in `w` bits, and the normalization invariant I1
holds (`p.address == p.address & netmask(p.nbits)`), which is established by
the Go constructors (`newIPv4`/`newIPv6` via `set`). -/
def Pfx.wf (w : Nat) (p : Pfx) : Prop :=
  p.nbits ≤ w ∧ p.addr < 2 ^ w ∧ p.addr &&& gmask w p.nbits = p.addr

instance (w : Nat) (p : Pfx) : Decidable (p.wf w) := by
  unfold Pfx.wf; infer_instance

/-- Go `IPv4.contains` (`ipv4.go`): `p.addr == i&ipv4Int(mask32(p.nbits))`. -/
def gcontains (w : Nat) (p : Pfx) (i : Nat) : Bool :=
  p.addr == i &&& gmask w p.nbits

/-- Go `IPv4.Equal` (`ipv4.go`): same address and same prefix length
(the cross-family case is handled at the dispatch layer). -/
def gequal (p q : Pfx) : Bool :=
  p.addr == q.addr && p.nbits == q.nbits

/-- Go `IPv4.lastAddr` (`ipv4.go`): `p.addr | ^mask32(p.nbits)`. -/
def glast (w : Nat) (p : Pfx) : Nat :=
  p.addr ||| ghostmask w p.nbits

/-- Go `IPv4.NumAddr` (`ipv4.go`): the big-int value of `Hostmask()` plus 1. -/
def gnumaddr (w : Nat) (p : Pfx) : Nat :=
  ghostmask w p.nbits + 1

/-- Go `IPv4.set` (`ipv4.go`): store `i & mask32(nbits)` and `nbits`; this is
the normalizing constructor used by `newIPv4`/`newIPv6`. -/
def gset (w : Nat) (i nbits : Nat) : Pfx :=
  ⟨nbits, i &&& gmask w nbits⟩

/-- Go `IPv4.descend(1)` (`ipv4.go`): split a prefix into its two halves of
length `nbits+1`.  The right half sets bit `w-nbits-1`; when `nbits+1 > w`
the Go shift count underflows and the or-ed bit is `0`. -/
def gdescend (w : Nat) (p : Pfx) : Pfx × Pfx :=
  (⟨p.nbits + 1, p.addr⟩,
   ⟨p.nbits + 1, p.addr ||| (if p.nbits + 1 ≤ w then 2 ^ (w - p.nbits - 1) else 0)⟩)

/-- Semantic membership of an address in a prefix (the address set of I2). -/
def memP (w : Nat) (p : Pfx) (i : Nat) : Prop :=
  i < 2 ^ w ∧ gcontains w p i = true

/-- Two prefixes are disjoint when no `w`-bit address belongs to both. -/
def DisjP (w : Nat) (p q : Pfx) : Prop :=
  ∀ i : Nat, ¬ (memP w p i ∧ memP w q i)

/-- The address set of `q` is included in the address set of `p`. -/
def SubsetP (w : Nat) (q p : Pfx) : Prop :=
  ∀ i : Nat, memP w q i → memP w p i

/-! ## Exclude (prefix subtraction by binary descent)

Embeds `IPv4.Exclude` (`ipv4.go`) / `IPv6.Exclude` (`ipv6.go`).  The Go loop
`for !l.Equal(&x) && !r.Equal(&x)` has no structurally decreasing argument;
on every terminating run it performs fewer than `w` iterations (the depth of
the halves grows by one per iteration and equality requires equal depths), so
fuel `w+1` is enough and exhaustion models exactly the diverging runs.  The
`none` result models a run with no normal return: either fuel exhaustion (the
descent never meets `x`, which happens when `x.nbits < p.nbits`) or the
`panic("got lost in the ... forest")` branch. -/

def gexcludeLoop (w : Nat) (x : Pfx) : Nat → Pfx → Pfx → Option (List Pfx)
  | 0, _, _ => none
  | fuel + 1, l, r =>
    if gequal l x then some [gset w r.addr r.nbits]
    else if gequal r x then some [gset w l.addr l.nbits]
    else if gcontains w l x.addr then
      (gexcludeLoop w x fuel (gdescend w l).1 (gdescend w l).2).map
        (fun s => gset w r.addr r.nbits :: s)
    else if gcontains w r x.addr then
      (gexcludeLoop w x fuel (gdescend w r).1 (gdescend w r).2).map
        (fun s => gset w l.addr l.nbits :: s)
    else none

def gexclude (w : Nat) (p x : Pfx) : Option (List Pfx) :=
  if gcontains w p x.addr = false then some []
  else if gequal p x then some [x]
  else gexcludeLoop w x (w + 1) (gdescend w p).1 (gdescend w p).2


/-! ## The `Prefix` interface: family dispatch (`prefix.go`)

The Go package exposes a `Prefix` interface with the two concrete
implementations `*IPv4` and `*IPv6`; operations between prefixes dispatch on
the dynamic types with type switches/assertions.  We embed it as a sum type;
the v6 payload is the 128-bit value of the two limbs (see the refinement
section for the limb-level operations of `helper.go`). -/

inductive IPPfx where
  | v4 : Pfx → IPPfx
  | v6 : Pfx → IPPfx
deriving DecidableEq, Repr

def IPPfx.width : IPPfx → Nat
  | .v4 _ => 32
  | .v6 _ => 128

def IPPfx.pfx : IPPfx → Pfx
  | .v4 p => p
  | .v6 p => p

def IPPfx.lenP (P : IPPfx) : Nat := P.pfx.nbits

def IPPfx.wfP (P : IPPfx) : Prop := P.pfx.wf P.width

instance (P : IPPfx) : Decidable P.wfP := by
  unfold IPPfx.wfP; infer_instance

/-- Whether two prefixes have the same address family (the Go type switches
test exactly this). -/
def sameFam : IPPfx → IPPfx → Bool
  | .v4 _, .v4 _ => true
  | .v6 _, .v6 _ => true
  | _, _ => false

/-- Go `IPv4.compare` (`ipv4.go`) / `IPv6.compare` (`ipv6.go`): order by
address in network byte order, then by prefix length.  The v6 version
compares the high limb, then the low limb, which is exactly the numeric
order of the 128-bit value (see `pairCompare_eq` in the refinement
section). -/
def pcompare (a b : Pfx) : Int :=
  if a.addr < b.addr then -1
  else if a.addr > b.addr then 1
  else if a.nbits < b.nbits then -1
  else if a.nbits > b.nbits then 1
  else 0

/-- Go `Compare` (`prefix.go`): dispatch on the families; when the second
operand is not of the first operand's family the function returns `-1` (in
both directions). -/
def Compare (a b : IPPfx) : Int :=
  match a, b with
  | .v4 a, .v4 b => pcompare a b
  | .v6 a, .v6 b => pcompare a b
  | _, _ => -1

/-- Go `IPv4.Equal`/`IPv6.Equal`: a failed type assertion yields `false`. -/
def Equal (a b : IPPfx) : Bool :=
  match a, b with
  | .v4 a, .v4 b => gequal a b
  | .v6 a, .v6 b => gequal a b
  | _, _ => false

/-- Go `IPv4.Overlaps`/`IPv6.Overlaps`: mutual containment test of the two
range endpoints; a failed type assertion yields `false`. -/
def Overlaps (a b : IPPfx) : Bool :=
  match a, b with
  | .v4 a, .v4 b =>
    gcontains 32 a b.addr || gcontains 32 a (glast 32 b) ||
    gcontains 32 b a.addr || gcontains 32 b (glast 32 a)
  | .v6 a, .v6 b =>
    gcontains 128 a b.addr || gcontains 128 a (glast 128 b) ||
    gcontains 128 b a.addr || gcontains 128 b (glast 128 a)
  | _, _ => false

/-- Go `IPv4.Exclude`/`IPv6.Exclude` at the interface level: the type switch
default returns nil for a prefix of the other family. -/
def Exclude (a b : IPPfx) : Option (List IPPfx) :=
  match a, b with
  | .v4 a, .v4 b => (gexclude 32 a b).map (List.map IPPfx.v4)
  | .v6 a, .v6 b => (gexclude 128 a b).map (List.map IPPfx.v6)
  | _, _ => some []

/-- `NumAddr` of a tagged prefix (`2^(width-nbits)` as an unbounded int). -/
def NumAddr (P : IPPfx) : Nat := gnumaddr P.width P.pfx

/-- Semantic membership of a `width`-bit address in a tagged prefix. -/
def memAP (P : IPPfx) (i : Nat) : Prop := memP P.width P.pfx i

instance (P : IPPfx) (i : Nat) : Decidable (memAP P i) := by
  unfold memAP memP; infer_instance

/-- Disjointness of the address sets of two tagged prefixes. -/
def DisjPfx (P Q : IPPfx) : Prop := ∀ i : Nat, ¬ (memAP P i ∧ memAP Q i)


/-! ## Addresses as passed through `net.IP` -/

/-- A `net.IP` argument: a 4-byte IPv4 address or a 16-byte IPv6 address. -/
inductive IPAddr where
  | v4 : Nat → IPAddr
  | v6 : Nat → IPAddr
deriving DecidableEq, Repr

/-- Go `net.IP.To4`: the 4-byte form, or the low 4 bytes of an IPv4-mapped
IPv6 address (`::ffff:a.b.c.d`); `none` models the nil result otherwise. -/
def IPAddr.to4? : IPAddr → Option Nat
  | .v4 a => some a
  | .v6 a => if a >>> 32 == 0xffff then some (a &&& 0xffffffff) else none

/-- Go `net.IP.To16`: the 16-byte form; a 4-byte address is widened to its
IPv4-mapped form `::ffff:a.b.c.d`. -/
def IPAddr.to16 : IPAddr → Nat
  | .v4 a => 0xffff <<< 32 ||| a
  | .v6 a => a

/-- Go `IPv4.Contains` (`ipv4.go` line 71) / `IPv6.Contains` (`ipv6.go` line
67).  The v4 method converts the argument with `To4` and `ipToIPv4Int`
(`helper.go` line 89); `ipToIPv4Int` reads 4 bytes of the slice and panics
(`none`) when `To4` returned nil.  The v6 method converts with `To16`, so a
4-byte address is tested in its IPv4-mapped form. -/
def ContainsIP (P : IPPfx) (ip : IPAddr) : Option Bool :=
  match P with
  | .v4 p => ip.to4?.map (fun a => gcontains 32 p a)
  | .v6 p => some (gcontains 128 p ip.to16)


/-! ## Leading-zero count (`helper.go`)

`nlz32`/`nlz64` smear the highest one bit over all lower positions and then
count the ones of the complement with the SWAR population count
`npop32`/`npop64`.  The byte conversion at the end of `npop` is a reduction
modulo 256. -/

def npop32 (bs : Nat) : Nat :=
  let b1 := (bs &&& 0x55555555) + ((bs >>> 1) &&& 0x55555555)
  let b2 := (b1 &&& 0x33333333) + ((b1 >>> 2) &&& 0x33333333)
  let b3 := (b2 &&& 0x0f0f0f0f) + ((b2 >>> 4) &&& 0x0f0f0f0f)
  let b4 := (b3 &&& 0x00ff00ff) + ((b3 >>> 8) &&& 0x00ff00ff)
  ((b4 &&& 0x0000ffff) + ((b4 >>> 16) &&& 0x0000ffff)) % 256

def nlz32 (bs : Nat) : Nat :=
  let s1 := bs ||| bs >>> 1
  let s2 := s1 ||| s1 >>> 2
  let s3 := s2 ||| s2 >>> 4
  let s4 := s3 ||| s3 >>> 8
  let s5 := s4 ||| s4 >>> 16
  npop32 (s5 ^^^ 0xffffffff)

def npop64 (bs : Nat) : Nat :=
  let b1 := (bs &&& 0x5555555555555555) + ((bs >>> 1) &&& 0x5555555555555555)
  let b2 := (b1 &&& 0x3333333333333333) + ((b1 >>> 2) &&& 0x3333333333333333)
  let b3 := (b2 &&& 0x0f0f0f0f0f0f0f0f) + ((b2 >>> 4) &&& 0x0f0f0f0f0f0f0f0f)
  let b4 := (b3 &&& 0x00ff00ff00ff00ff) + ((b3 >>> 8) &&& 0x00ff00ff00ff00ff)
  let b5 := (b4 &&& 0x0000ffff0000ffff) + ((b4 >>> 16) &&& 0x0000ffff0000ffff)
  ((b5 &&& 0x00000000ffffffff) + ((b5 >>> 32) &&& 0x00000000ffffffff)) % 256

def nlz64 (bs : Nat) : Nat :=
  let s1 := bs ||| bs >>> 1
  let s2 := s1 ||| s1 >>> 2
  let s3 := s2 ||| s2 >>> 4
  let s4 := s3 ||| s3 >>> 8
  let s5 := s4 ||| s4 >>> 16
  let s6 := s5 ||| s5 >>> 32
  npop64 (s6 ^^^ 0xffffffffffffffff)

/-- Length in bits of a natural number (arithmetic characterization used to
state what `nlz32`/`nlz64` compute); the first argument is fuel. -/
def bitlenAux : Nat → Nat → Nat
  | 0, _ => 0
  | fuel + 1, x => if x = 0 then 0 else bitlenAux fuel (x / 2) + 1

def bitlen (x : Nat) : Nat := bitlenAux x x

/-- The number of leading zeros of a `w`-bit value: what `nlz32` (`w = 32`)
and the limb pair logic of `supernetIPv6` (`w = 128`) compute. -/
def gnlz (w x : Nat) : Nat := w - bitlen x

/-! ## Subnets and Supernet -/

/-- Go `IPv4.Subnets`/`IPv6.Subnets` (`ipv4.go` line 214, `ipv6.go` line
200): `nil` when `nbits < 0` or the total length exceeds the width,
otherwise the `2^n` children `newIPvN(p.addr | i<<off, p.nbits+n)` in
ascending order of `i`.  (For `n < 17` the Go code materializes exactly this
list; for larger `n` it drains `SubnetIter`, whose loop yields the same
sequence one element at a time.) -/
def gsubnets (w : Nat) (p : Pfx) (n : Nat) : Option (List Pfx) :=
  if p.nbits + n > w then none
  else some ((List.range (2 ^ n)).map fun i =>
    gset w (p.addr ||| i <<< (w - p.nbits - n)) (p.nbits + n))

/-- `Subnets` at the interface level. -/
def Subnets (P : IPPfx) (n : Nat) : Option (List IPPfx) :=
  match P with
  | .v4 p => (gsubnets 32 p n).map (List.map IPPfx.v4)
  | .v6 p => (gsubnets 128 p n).map (List.map IPPfx.v6)

/-- Go `supernetIPv4` (`ipv4.go` line 412): shrink the candidate length to
the leading-zero count of every nonzero masked difference with the first
element; `nil` when the length reaches 0.  (The Go code indexes `subs[0]`
and is only ever called with at least two elements; the `[]` case is added
to make the function total.) -/
def supernetIPv4 (subs : List Pfx) : Option Pfx :=
  match subs with
  | [] => none
  | s0 :: rest =>
    let m := gmask 32 s0.nbits
    let base := s0.addr &&& m
    let nbits := rest.foldl (fun nb s =>
      let diff := (base ^^^ s.addr) &&& m
      if diff ≠ 0 then (if nlz32 diff < nb then nlz32 diff else nb) else nb)
      s0.nbits
    if nbits = 0 then none else some (gset 32 s0.addr nbits)

/-- The width-generic form of `supernetIPv4`/`supernetIPv6` with the
leading-zero count written arithmetically; `supernetIPv4` equals this at
`w = 32` (`supernetIPv4_eq`), and the limb-level `supernetIPv6` of
`ipv6.go` computes the same leading-zero count on the 128-bit value (its
`nlz64(diff[0])` / `64+nlz64(diff[1])` split). -/
def gsupernet (w : Nat) (subs : List Pfx) : Option Pfx :=
  match subs with
  | [] => none
  | s0 :: rest =>
    let m := gmask w s0.nbits
    let base := s0.addr &&& m
    let nbits := rest.foldl (fun nb s =>
      let diff := (base ^^^ s.addr) &&& m
      if diff ≠ 0 then (if gnlz w diff < nb then gnlz w diff else nb) else nb)
      s0.nbits
    if nbits = 0 then none else some (gset w s0.addr nbits)

/-- Go `byAddrFamily.ipv4Only` (`prefix.go` line 273): keep the `*IPv4`
elements. -/
def ipv4OnlyP (ps : List IPPfx) : List Pfx :=
  ps.filterMap fun p =>
    match p with
    | .v4 q => some q
    | _ => none

/-- Go `byAddrFamily.ipv6Only` (`prefix.go` line 283): keep the `*IPv6`
elements. -/
def ipv6OnlyP (ps : List IPPfx) : List Pfx :=
  ps.filterMap fun p =>
    match p with
    | .v6 q => some q
    | _ => none

/-- Go `Supernet` (`prefix.go` line 170): dispatch on the family of the
first element, filter to that family, and special-case lists of zero or one
element. -/
def Supernet (ps : List IPPfx) : Option IPPfx :=
  match ps with
  | [] => none
  | p0 :: _ =>
    match p0 with
    | .v4 _ =>
      match ipv4OnlyP ps with
      | [] => none
      | [s] => some (.v4 s)
      | s0 :: s1 :: rest => (supernetIPv4 (s0 :: s1 :: rest)).map IPPfx.v4
    | .v6 _ =>
      match ipv6OnlyP ps with
      | [] => none
      | [s] => some (.v6 s)
      | s0 :: s1 :: rest => (gsupernet 128 (s0 :: s1 :: rest)).map IPPfx.v6

/-! ## Summarize (`ipv4.go` line 486, `prefix.go` line 226) -/

/-- The inner loop of Go `summarizeIPv4` (`ipv4.go` line 491): starting
from `nbits = w`, keep decrementing while `first` equals
`first & mask(nbits-1)` (alignment) and `first | ^mask(nbits-1)` (the last
address of the widened candidate) does not pass `last`.  The loop body runs
at most `nbits` times, so `nbits` as fuel is exact. -/
def gsumPickAux (w first last : Nat) : Nat → Nat → Nat
  | 0, nbits => nbits
  | fuel + 1, nbits =>
    if 0 < nbits ∧ first = first &&& gmask w (nbits - 1) ∧
        first ||| ghostmask w (nbits - 1) ≤ last then
      gsumPickAux w first last fuel (nbits - 1)
    else nbits

/-- The widest prefix length at which `first` starts an aligned block inside
`[first, last]` (the exit value of the inner loop of `summarizeIPv4`). -/
def gsumPick (w first last : Nat) : Nat :=
  gsumPickAux w first last w w

/-- The outer loop of Go `summarizeIPv4`: while `first ≤ last`, append
`newIPv4(first, nbits)` for the picked `nbits` (written inline below),
stop right away when its last address is the end of the space, and
otherwise restart just past its last address.  Each iteration consumes at
least one address, so `2^w` fuel covers every run with `last < 2^w`;
`none` models fuel exhaustion. -/
def gsummarizeLoop (w : Nat) : Nat → Nat → Nat → Option (List Pfx)
  | 0, _, _ => none
  | fuel + 1, first, last =>
    if first ≤ last then
      if glast w (gset w first (gsumPick w first last)) = 2 ^ w - 1 then
        some [gset w first (gsumPick w first last)]
      else
        (gsummarizeLoop w fuel
          (glast w (gset w first (gsumPick w first last)) + 1) last).map
          (gset w first (gsumPick w first last) :: ·)
    else some []

/-- Go `summarizeIPv4` on the integer values of the two addresses. -/
def gsummarize (w first last : Nat) : Option (List Pfx) :=
  gsummarizeLoop w (2 ^ w) first last

/-- Go `Summarize` (`prefix.go` line 226): dispatch on `To4`/`To16`; a
family mismatch returns nil (`some []`), and the `first == nil || last ==
nil` guard has no counterpart because modelled addresses are never nil.
`summarizeIPv6` is called by `prefix.go` line 241 but its defining file is
not in the repository snapshot.  Modelled from the spec: the IPv6 branch
runs the width-128 instance `gsummarize 128` of the loop embedded from
`summarizeIPv4`, per the single description of Summarize that the spec
gives for both families. -/
def SummarizeM (first last : IPAddr) : Option (List IPPfx) :=
  match first.to4? with
  | some f4 =>
    match last.to4? with
    | some l4 => (gsummarize 32 f4 l4).map (List.map IPPfx.v4)
    | none => some []
  | none =>
    match last.to4? with
    | some _ => some []
    | none => (gsummarize 128 first.to16 last.to16).map (List.map IPPfx.v6)

/-! ## Hosts (`ipv4.go` lines 33-64 and 166-196) -/

/-- Go `IPv4.isDefaultRoute` (`ipv4.go` line 33). -/
def isDefaultRoute (p : Pfx) : Bool :=
  p.addr == 0 && p.nbits == 0

/-- Go `IPv4.isNetworkAddr` (`ipv4.go` line 37): the all-zeros host
portion, except that a `/32` has no network address. -/
def isNetworkAddr (p : Pfx) (i : Nat) : Bool :=
  if p.nbits == 32 then false else p.addr == i

/-- Go `IPv4.isBroadcastAddr` (`ipv4.go` line 44):
`p.addr | ^mask32(p.nbits) == i`.  (Unlike `isNetworkAddr`, and unlike the
exported `BroadcastAddr` at line 146, there is no `nbits == 32` guard.) -/
def isBroadcastAddr (p : Pfx) (i : Nat) : Bool :=
  p.addr ||| ghostmask 32 p.nbits == i

/-- Go `IPv4.isLimitedBroadcastAddr` (`ipv4.go` line 48); the receiver is
unused in the source. -/
def isLimitedBroadcastAddr (i : Nat) : Bool :=
  i == 0xffffffff

/-- Go `IPv4.isHostAssignable` (`ipv4.go` line 52): `(ok, endOfRange)`. -/
def isHostAssignable (p : Pfx) (i : Nat) : Bool × Bool :=
  if isLimitedBroadcastAddr i = true then
    if isDefaultRoute p = true then (true, true) else (false, true)
  else if isBroadcastAddr p i = true then (false, true)
  else if isNetworkAddr p i = true then (false, false)
  else (true, false)

/-- The host-collecting loop of Go `IPv4.Hosts` (`ipv4.go` line 181):
`for p.contains(cur) { if eor break; cur++; if ok append }`.  `cur++` is a
`uint32` increment, hence the `% 2^32`.  The `ipv4HostIter.run` loop used
by `Hosts` when `32 - nbits ≥ 17` (`ipv4.go` line 358) performs the same
test-increment-append sequence from the same start, so this loop covers
both paths (its one-second send timeout is a real-time concern with no
counterpart here).  The returned list holds the appended addresses in
order; `none` models fuel exhaustion, which no in-range run reaches. -/
def ipv4HostsLoop (p : Pfx) : Nat → Nat → Option (List Nat)
  | 0, _ => none
  | fuel + 1, cur =>
    if gcontains 32 p cur = true then
      if (isHostAssignable p cur).2 = true then some []
      else
        (ipv4HostsLoop p fuel ((cur + 1) % 2 ^ 32)).map fun rest =>
          if (isHostAssignable p ((cur + 1) % 2 ^ 32)).1 = true then
            (cur + 1) % 2 ^ 32 :: rest
          else rest
    else some []

/-- Go `IPv4.Hosts` (`ipv4.go` line 166) on the integer value of `begin`
(`none` for an empty `begin` slice): nil for the default route, otherwise
the possible initial element (`ok && contains` at the start address)
followed by the loop emissions. -/
def ipv4Hosts (p : Pfx) (bg : Option Nat) : Option (List Nat) :=
  if isDefaultRoute p = true then some []
  else
    (ipv4HostsLoop p (2 ^ 32) (bg.getD p.addr)).map fun rest =>
      (if ((isHostAssignable p (bg.getD p.addr)).1 &&
          gcontains 32 p (bg.getD p.addr)) = true then
        [bg.getD p.addr]
      else []) ++ rest

/-! ## NLRI decoding and Set (`helper.go` line 79, `ipv4.go` line 292) -/

/-- The address loop of Go `IPv4.decodeNLRI` (`helper.go` line 83):
`p.addr |= ipv4Int(b[n]) << uint(32-8*(n+1))` over the payload bytes.  For
`n ≥ 4` the Go shift count `uint(32-8*(n+1))` underflows to a huge value
and the shifted `uint32` is 0. -/
def decodeNLRIAux : Nat → List Nat → Nat → Nat
  | addr, [], _ => addr
  | addr, byt :: rest, n =>
    decodeNLRIAux
      (addr ||| (if 8 * (n + 1) ≤ 32 then byt <<< (32 - 8 * (n + 1)) else 0))
      rest (n + 1)

/-- Go `IPv4.decodeNLRI` (`helper.go` line 79), the body of
`UnmarshalBinary` (`ipv4.go` line 310): `p.nbits = int(b[0])`, then OR
every payload byte into the *existing* `p.addr` at descending byte
positions.  `b[0]` on an empty slice panics (`none`).  There is no bounds
check on the read `nbits` and no masking of the resulting address. -/
def decodeNLRI (p : Pfx) (b : List Nat) : Option Pfx :=
  match b with
  | [] => none
  | b0 :: rest => some ⟨b0, decodeNLRIAux p.addr rest 0⟩

/-- Go `IPv4.Set` (`ipv4.go` line 292), reached by `UnmarshalText` with
the address and mask size that `net.ParseCIDR` (standard library) parsed:
when the address is 4-byte convertible and `nbits ≤ 32` (the `0 <= nbits`
half of the Go guard is carried by `Nat`), store `set(i, nbits)`, which
masks the address; `none` is the `errInvalidArgument` return. -/
def SetIPv4 (ip : IPAddr) (nbits : Nat) : Option Pfx :=
  match ip.to4? with
  | some i => if nbits ≤ 32 then some (gset 32 i nbits) else none
  | none => none

/-! ## Cursor (`cursor.go`)

`cursor.go` belongs to a later revision of the package than `prefix.go`:
its `Prefix` is a struct with an `IP` field and methods
`lastIPv4MappedInt`, `lastIPv6Int`, and `ipv6Int` has a `cmp` method; the
files defining those are absent from the repository snapshot, so they are
modelled from the spec where noted.  `ipv6Int.incr` is embedded from
`helper.go` line 105. -/

/-- The `[2]uint64` pair `ipv6Int` of `helper.go`: `hi` holds bits 0..63
of the 128-bit value in network order, `lo` bits 64..127. -/
structure V6Int where
  hi : Nat
  lo : Nat
deriving DecidableEq, Repr

/-- Go `ipToIPv6Int` (`helper.go` line 171) on the integer value of a
16-byte address: big-endian split into the two 64-bit halves. -/
def ipToV6Int (a : Nat) : V6Int :=
  ⟨a >>> 64, a &&& (2 ^ 64 - 1)⟩

/-- Go `ipv6Int.incr` (`helper.go` line 105); the `i[0]++` overflow is the
`uint64` wrap. -/
def v6incr (i : V6Int) : V6Int :=
  if i.lo == 2 ^ 64 - 1 then ⟨(i.hi + 1) % 2 ^ 64, 0⟩
  else ⟨i.hi, (i.lo + 1) % 2 ^ 64⟩

/-- `ipv6Int.cmp`, called at `cursor.go` line 67 but absent from the
snapshot.  Modelled from the spec: BitOps provides 128-bit compare on the
2xu64 pair, i.e. lexicographic order on `(hi, lo)`. -/
def v6cmp (a b : V6Int) : Int :=
  if a.hi < b.hi then -1
  else if b.hi < a.hi then 1
  else if a.lo < b.lo then -1
  else if b.lo < a.lo then 1
  else 0

/-- The `IP` field of the struct `Prefix` used by `cursor.go` (defining
file absent).  Modelled from the spec: a prefix is the pair
`(address, nbits)` and its `IP` is the address in the family's byte
length. -/
def pfxIP : IPPfx → IPAddr
  | .v4 p => .v4 p.addr
  | .v6 p => .v6 p.addr

/-- `Prefix.lastIPv4MappedInt` / `Prefix.lastIPv6Int` (`cursor.go` lines
31 and 34, defining file absent).  Modelled from the spec: the last
address of the prefix, held by the cursor as an `ipv6Int` pair — in
IPv4-mapped form for a 4-byte prefix (the `ip.To4() != nil` branch of
`Cursor.next`), plain for a 16-byte one. -/
def cursorLast : IPPfx → V6Int
  | .v4 p => ⟨0, 0xffff <<< 32 ||| glast 32 p⟩
  | .v6 p => ipToV6Int (glast 128 p)

/-- Go `Cursor` (`cursor.go` line 19): current and last address of the
current prefix as `ipv6Int` pairs, the index `pi`, and the prefix list. -/
structure Cursor where
  curr : V6Int
  last : V6Int
  pi : Nat
  ps : List IPPfx
deriving DecidableEq, Repr

/-- Go `Cursor.next` (`cursor.go` line 26): step to prefix `pi+1`, set the
current address to its first address and `last` to its last address.
`ps[c.pi]` out of range panics in Go (`none`); `Cursor.Next` only calls
this when `pi+1` is in range. -/
def cursorNextState (c : Cursor) : Option Cursor :=
  match c.ps[c.pi + 1]? with
  | none => none
  | some P =>
    some { c with
             pi := c.pi + 1
             curr := ipToV6Int (pfxIP P).to16
             last := cursorLast P }

/-- Go `Cursor.Pos` (`cursor.go` line 79): the current address and the
current prefix; out-of-range `ps[c.pi]` panics (`none`). -/
def cursorPos (c : Cursor) : Option (V6Int × IPPfx) :=
  match c.ps[c.pi]? with
  | none => none
  | some P => some (c.curr, P)

/-- Go `Cursor.Next` (`cursor.go` line 66).  The result is
`some (position?, cursor)`: `position? = none` is the nil return at the
end, and an outer `none` models a panic (never reached from a cursor
whose `pi` is in range). -/
def CursorNext (c : Cursor) : Option (Option (V6Int × IPPfx) × Cursor) :=
  if v6cmp c.curr c.last = 0 then
    if c.pi = c.ps.length - 1 then some (none, c)
    else
      (cursorNextState c).bind fun c1 =>
        (cursorPos c1).map fun pos => (some pos, c1)
  else
    (cursorPos { c with curr := v6incr c.curr }).map fun pos =>
      (some pos, { c with curr := v6incr c.curr })

/-! ## Aggregate and the caller-visible backing array (`prefix.go` line 198)

`sortAndDedup` (`prefix.go` line 247) reuses the input slice in place:
`byAddrFamily.ipv4Only`/`ipv6Only` (line 273) write the kept elements into
`ps[:0]` of the same backing array, `sort.Sort` permutes that filtered
portion in place, and the dedup loop writes into `ps[:0]` again.
`aggregateIPv4`/`aggregateIPv6` only read their argument and append to a
fresh list, so the caller-visible backing after `Aggregate` is the one
`sortAndDedup` leaves.  `sort.Sort` is the standard library's unstable
sort; on a slice whose elements are pairwise distinct under the order
every correct sort produces the same permutation, so it is modelled by
insertion sort with the same `Less` (`byAddrAndLen.Less`, `prefix.go`
line 299: `Compare(ps[i], ps[j]) < 0`; the following `Len()` tie-break is
unreachable because `Compare` already orders by length). -/

/-- One insertion step of the in-place sort, ordered by
`byAddrAndLen.Less`. -/
def insAggr (x : IPPfx) : List IPPfx → List IPPfx
  | [] => [x]
  | y :: ys => if Compare x y < 0 then x :: y :: ys else y :: insAggr x ys

/-- The sorted permutation `sort.Sort(byAddrAndLen(ps))` produces. -/
def sortAggr : List IPPfx → List IPPfx
  | [] => []
  | x :: xs => insAggr x (sortAggr xs)

/-- The dedup loop of `sortAndDedup` (`prefix.go` line 258) after the
first element has been written: append each element that is not `Equal`
to its predecessor. -/
def dedupLoop (prev : IPPfx) : List IPPfx → List IPPfx
  | [] => []
  | p :: rest =>
    if Equal prev p = true then dedupLoop p rest else p :: dedupLoop p rest

/-- The list the dedup loop writes into `ps[:0]` (the first element always
goes in because `prev` starts nil). -/
def dedupAggr : List IPPfx → List IPPfx
  | [] => []
  | x :: xs => x :: dedupLoop x xs

/-- Go `sortAndDedup` (`prefix.go` line 247) with its frame effect: the
pair of the returned slice and the final contents of the caller's backing
array.  Filtering writes the kept elements `f` over `ps[:len f]`, the
sort permutes them, the dedup writes `d` over `ps[:len d]`; every
position beyond a write keeps what was there before it. -/
def sortAndDedupBacking (ps : List IPPfx) : List IPPfx × List IPPfx :=
  match ps with
  | [] => ([], [])
  | P0 :: _ =>
    let f := match P0 with
      | .v4 _ => ps.filter fun P =>
          match P with
          | .v4 _ => true
          | .v6 _ => false
      | .v6 _ => ps.filter fun P =>
          match P with
          | .v4 _ => false
          | .v6 _ => true
    let s := sortAggr f
    let d := dedupAggr s
    (d, d ++ s.drop d.length ++ ps.drop f.length)

/-- The contents of the caller's array after Go `Aggregate` (`prefix.go`
line 198) returns: unchanged for an empty input, otherwise whatever
`sortAndDedup` left (`aggregateIPv4`/`aggregateIPv6` do not write to
it). -/
def AggregateBacking (ps : List IPPfx) : List IPPfx :=
  match ps with
  | [] => ps
  | _ :: _ => (sortAndDedupBacking ps).2

/-! ## Bitwise and arithmetic kit -/

theorem gmask_of_le {w n : Nat} (h : n ≤ w) : gmask w n = 2 ^ w - 2 ^ (w - n) := by
  simp [gmask, h]

theorem gmask_eq_mul {w n : Nat} (h : n ≤ w) :
    gmask w n = 2 ^ (w - n) * (2 ^ n - 1) := by
  rw [gmask_of_le h, Nat.mul_sub, Nat.mul_one, ← Nat.pow_add]
  have hwn : w - n + n = w := by omega
  rw [hwn]

theorem two_pow_le_two_pow {a b : Nat} (h : a ≤ b) : 2 ^ a ≤ 2 ^ b :=
  Nat.pow_le_pow_right (by omega) h

/-- Conjunction with a shifted mask extracts a middle field:
`i &&& (2^k * m) = 2^k * ((i / 2^k) &&& m)`. -/
theorem land_shifted (i k m : Nat) :
    i &&& (2 ^ k * m) = 2 ^ k * ((i >>> k) &&& m) := by
  apply Nat.eq_of_testBit_eq
  intro j
  rw [Nat.testBit_and, Nat.testBit_mul_pow_two, Nat.testBit_mul_pow_two]
  by_cases hj : k ≤ j
  · simp [hj, Nat.testBit_and, Nat.testBit_shiftRight, Nat.add_sub_cancel' hj]
  · simp [hj]

/-- The central characterization: conjunction with the netmask keeps the top
`n` bits, i.e. rounds down to a multiple of `2^(w-n)` of the `w`-bit value. -/
theorem land_gmask (i : Nat) {w n : Nat} (h : n ≤ w) :
    i &&& gmask w n = 2 ^ (w - n) * (i / 2 ^ (w - n) % 2 ^ n) := by
  rw [gmask_eq_mul h, land_shifted]
  congr 1
  rw [Nat.and_pow_two_sub_one_eq_mod, Nat.shiftRight_eq_div_pow]

theorem land_gmask_of_lt {i w n : Nat} (h : n ≤ w) (hi : i < 2 ^ w) :
    i &&& gmask w n = 2 ^ (w - n) * (i / 2 ^ (w - n)) := by
  rw [land_gmask i h]
  congr 1
  apply Nat.mod_eq_of_lt
  apply Nat.div_lt_of_lt_mul
  calc i < 2 ^ w := hi
    _ = 2 ^ (w - n) * 2 ^ n := by rw [← Nat.pow_add]; congr 1; omega

/-- Normalization (invariant I1) is the same as divisibility of the address
by the host-portion size. -/
theorem norm_iff_dvd {w n a : Nat} (h : n ≤ w) (ha : a < 2 ^ w) :
    a &&& gmask w n = a ↔ 2 ^ (w - n) ∣ a := by
  rw [land_gmask_of_lt h ha]
  constructor
  · intro he
    exact ⟨a / 2 ^ (w - n), he.symm⟩
  · intro ⟨c, hc⟩
    subst hc
    rw [Nat.mul_div_cancel_left c (Nat.two_pow_pos _)]

theorem wf_dvd {w : Nat} {p : Pfx} (h : p.wf w) : 2 ^ (w - p.nbits) ∣ p.addr :=
  (norm_iff_dvd h.1 h.2.1).mp h.2.2

/-- The host mask is the all-ones pattern on the low `w - n` bits. -/
theorem ghostmask_eq {w n : Nat} (h : n ≤ w) : ghostmask w n = 2 ^ (w - n) - 1 := by
  apply Nat.eq_of_testBit_eq
  intro j
  rw [ghostmask, Nat.testBit_xor, gmask_eq_mul h, Nat.testBit_mul_pow_two]
  simp only [Nat.testBit_two_pow_sub_one]
  by_cases h1 : j < w - n
  · simp [h1, (show j < w by omega), (show ¬ (w - n ≤ j) by omega)]
  · by_cases h2 : j < w
    · simp [h1, h2, (show w - n ≤ j by omega), (show j - (w - n) < n by omega)]
    · simp [h1, h2, (show w - n ≤ j by omega), (show ¬ (j - (w - n) < n) by omega)]

theorem gnumaddr_eq {w : Nat} {p : Pfx} (h : p.nbits ≤ w) :
    gnumaddr w p = 2 ^ (w - p.nbits) := by
  rw [gnumaddr, ghostmask_eq h]
  have := Nat.two_pow_pos (w - p.nbits)
  omega

/-- Disjoint or is addition: `a ||| b = a + b` when `a` is a multiple of `2^k`
and `b < 2^k`. -/
theorem lor_eq_add {a b k : Nat} (hd : 2 ^ k ∣ a) (hb : b < 2 ^ k) :
    a ||| b = a + b := by
  obtain ⟨c, hc⟩ := hd
  subst hc
  exact (Nat.mul_add_lt_is_or hb c).symm

theorem glast_eq {w : Nat} {p : Pfx} (h : p.wf w) :
    glast w p = p.addr + (2 ^ (w - p.nbits) - 1) := by
  rw [glast, ghostmask_eq h.1]
  exact lor_eq_add (wf_dvd h) (by have := Nat.two_pow_pos (w - p.nbits); omega)

/-- Interval characterization of containment (invariant I2): a well-formed
prefix contains exactly the addresses from `p.addr` to `p.addr + 2^(w-n) - 1`,
as long as the probed address fits in `w` bits. -/
theorem gcontains_iff {w : Nat} {p : Pfx} (h : p.wf w) {i : Nat} (hi : i < 2 ^ w) :
    gcontains w p i = true ↔ p.addr ≤ i ∧ i < p.addr + 2 ^ (w - p.nbits) := by
  rw [gcontains, beq_iff_eq, land_gmask_of_lt h.1 hi]
  obtain ⟨c, hc⟩ := wf_dvd h
  set k := 2 ^ (w - p.nbits) with hk
  have hkpos : 0 < k := Nat.two_pow_pos _
  have hdm := Nat.div_add_mod i k
  have hmlt := Nat.mod_lt i hkpos
  constructor
  · intro he
    omega
  · intro ⟨h1, h2⟩
    have hg1 : c * k ≤ i := by rw [Nat.mul_comm, ← hc]; exact h1
    have hg2 : i < (c + 1) * k := by
      rw [Nat.add_mul, Nat.one_mul, Nat.mul_comm c k, ← hc]; exact h2
    have hdiv : i / k = c := Nat.div_eq_of_lt_le hg1 hg2
    rw [hdiv, hc, Nat.mul_comm]

theorem gmask_lt (w n : Nat) : gmask w n < 2 ^ w := by
  unfold gmask
  by_cases h : n ≤ w
  · simp only [h, if_true]
    have h1 := Nat.two_pow_pos (w - n)
    have h2 := Nat.two_pow_pos w
    omega
  · simp only [h, if_false]
    exact Nat.two_pow_pos w

theorem land_gmask_idem (i : Nat) (w n : Nat) :
    (i &&& gmask w n) &&& gmask w n = i &&& gmask w n := by
  apply Nat.eq_of_testBit_eq
  intro j
  simp [Nat.testBit_and, Bool.and_assoc]

theorem gset_wf {w n : Nat} (i : Nat) (h : n ≤ w) : (gset w i n).wf w := by
  refine ⟨h, ?_, ?_⟩
  · exact Nat.lt_of_le_of_lt (Nat.and_le_right) (gmask_lt w n)
  · exact land_gmask_idem i w n

theorem gset_of_wf {w : Nat} {p : Pfx} (h : p.wf w) : gset w p.addr p.nbits = p := by
  unfold gset
  cases p with
  | mk nbits addr =>
    simp only [Pfx.mk.injEq]
    exact ⟨trivial, h.2.2⟩

theorem memP_iff {w : Nat} {p : Pfx} (h : p.wf w) {i : Nat} :
    memP w p i ↔ i < 2 ^ w ∧ p.addr ≤ i ∧ i < p.addr + 2 ^ (w - p.nbits) := by
  unfold memP
  constructor
  · intro ⟨hi, hc⟩
    exact ⟨hi, (gcontains_iff h hi).mp hc⟩
  · intro ⟨hi, hc⟩
    exact ⟨hi, (gcontains_iff h hi).mpr hc⟩

/-- The range of a well-formed prefix stays inside the `w`-bit address space. -/
theorem range_in_space {w : Nat} {p : Pfx} (h : p.wf w) :
    p.addr + 2 ^ (w - p.nbits) ≤ 2 ^ w := by
  obtain ⟨c, hc⟩ := wf_dvd h
  have hlt : p.addr < 2 ^ w := h.2.1
  have hd : (2 : Nat) ^ (w - p.nbits) ∣ 2 ^ w := Nat.pow_dvd_pow 2 (by omega)
  obtain ⟨d, hdw⟩ := hd
  rw [hc] at hlt ⊢
  have hcd : c < d := by
    by_contra hcd
    push_neg at hcd
    have := Nat.mul_le_mul_left (2 ^ (w - p.nbits)) hcd
    omega
  calc 2 ^ (w - p.nbits) * c + 2 ^ (w - p.nbits)
      = 2 ^ (w - p.nbits) * (c + 1) := by ring
    _ ≤ 2 ^ (w - p.nbits) * d := Nat.mul_le_mul_left _ (by omega)
    _ = 2 ^ w := hdw.symm

theorem memP_self {w : Nat} {p : Pfx} (h : p.wf w) : memP w p p.addr := by
  rw [memP_iff h]
  have h1 := Nat.two_pow_pos (w - p.nbits)
  have h2 := range_in_space h
  exact ⟨by omega, Nat.le_refl _, by omega⟩

theorem dvd_le_sub {d m N : Nat} (hdm : d ∣ m) (hmN : m < N) (hdN : d ∣ N) :
    m ≤ N - d := by
  obtain ⟨a, ha⟩ := hdm
  obtain ⟨b, hb⟩ := hdN
  subst ha hb
  have hd : 0 < d := by
    rcases Nat.eq_zero_or_pos d with h | h
    · subst h; simp at hmN
    · exact h
  have hab : a < b := by
    by_contra hab
    push_neg at hab
    have := Nat.mul_le_mul_left d hab
    omega
  have : d * a ≤ d * (b - 1) := Nat.mul_le_mul_left d (by omega)
  have hexp : d * (b - 1) = d * b - d := by
    rw [Nat.mul_sub, Nat.mul_one]
  omega

/-- Two well-formed prefixes of the same length and different addresses have
disjoint address sets. -/
theorem disjP_of_ne {w : Nat} {a b : Pfx} (ha : a.wf w) (hb : b.wf w)
    (hn : a.nbits = b.nbits) (hne : a.addr ≠ b.addr) : DisjP w a b := by
  intro i ⟨hia, hib⟩
  rw [memP_iff ha] at hia
  rw [memP_iff hb] at hib
  rw [hn] at hia
  have hda := wf_dvd ha
  have hdb := wf_dvd hb
  rw [hn] at hda
  rcases Nat.lt_or_ge a.addr b.addr with hab | hab
  · have : b.addr - a.addr < 2 ^ (w - b.nbits) := by omega
    have hd : 2 ^ (w - b.nbits) ∣ b.addr - a.addr := Nat.dvd_sub' hdb hda
    obtain ⟨c, hc⟩ := hd
    have hc0 : c = 0 := by
      by_contra hc0
      have : 2 ^ (w - b.nbits) * 1 ≤ 2 ^ (w - b.nbits) * c :=
        Nat.mul_le_mul_left _ (by omega)
      omega
    subst hc0
    simp at hc
    omega
  · have hlt : a.addr - b.addr < 2 ^ (w - b.nbits) := by omega
    have hd : 2 ^ (w - b.nbits) ∣ a.addr - b.addr := Nat.dvd_sub' hda hdb
    obtain ⟨c, hc⟩ := hd
    have hc0 : c = 0 := by
      by_contra hc0
      have : 2 ^ (w - b.nbits) * 1 ≤ 2 ^ (w - b.nbits) * c :=
        Nat.mul_le_mul_left _ (by omega)
      omega
    subst hc0
    simp at hc
    omega

theorem disjP_symm {w : Nat} {a b : Pfx} (h : DisjP w a b) : DisjP w b a := by
  intro i ⟨h1, h2⟩
  exact h i ⟨h2, h1⟩

theorem disjP_of_subset {w : Nat} {a b c : Pfx} (hs : SubsetP w b c)
    (h : DisjP w a c) : DisjP w a b := by
  intro i ⟨h1, h2⟩
  exact h i ⟨h1, hs i h2⟩

/-- A well-formed prefix whose address is contained in a coarser well-formed
prefix is contained in it as a set. -/
theorem subsetP_of_contains {w : Nat} {q p : Pfx} (hq : q.wf w) (hp : p.wf w)
    (hn : p.nbits ≤ q.nbits) (hc : gcontains w p q.addr = true) : SubsetP w q p := by
  intro i hi
  rw [memP_iff hq] at hi
  rw [memP_iff hp]
  have hqa : q.addr < 2 ^ w := hq.2.1
  rw [gcontains_iff hp hqa] at hc
  have hsub : q.addr + 2 ^ (w - q.nbits) ≤ p.addr + 2 ^ (w - p.nbits) := by
    have hdq : 2 ^ (w - q.nbits) ∣ q.addr - p.addr := by
      apply Nat.dvd_sub' (wf_dvd hq)
      exact Nat.dvd_trans (Nat.pow_dvd_pow 2 (by omega)) (wf_dvd hp)
    have hdN : (2 : Nat) ^ (w - q.nbits) ∣ 2 ^ (w - p.nbits) :=
      Nat.pow_dvd_pow 2 (by omega)
    rcases Nat.eq_or_lt_of_le (show p.addr ≤ q.addr from hc.1) with he | hlt
    · have h2 := two_pow_le_two_pow (show w - q.nbits ≤ w - p.nbits by omega)
      omega
    · have := dvd_le_sub hdq (show q.addr - p.addr < 2 ^ (w - p.nbits) by omega) hdN
      have h2 := Nat.two_pow_pos (w - q.nbits)
      omega
  exact ⟨hi.1, by omega, by omega⟩

theorem gequal_iff {p q : Pfx} : gequal p q = true ↔ p = q := by
  cases p with
  | mk pn pa =>
    cases q with
    | mk qn qa =>
      simp [gequal, and_comm]

theorem subsetP_trans {w : Nat} {a b c : Pfx} (h1 : SubsetP w a b)
    (h2 : SubsetP w b c) : SubsetP w a c :=
  fun i hi => h2 i (h1 i hi)

theorem subsetP_refl {w : Nat} (a : Pfx) : SubsetP w a a := fun _ hi => hi


theorem eq_of_dvd_close {d a b : Nat} (h1 : d ∣ a) (h2 : d ∣ b) (hle : a ≤ b)
    (hlt : b < a + d) : a = b := by
  have hd : d ∣ b - a := Nat.dvd_sub' h2 h1
  obtain ⟨c, hc⟩ := hd
  have hc0 : c = 0 := by
    by_contra hc0
    have : d * 1 ≤ d * c := Nat.mul_le_mul_left d (by omega)
    omega
  subst hc0
  simp at hc
  omega

/-- One step of the binary descent of `Exclude`: splitting a strict ancestor
`c` of `x` yields a descended half `d` (the one whose address range keeps
`x`) and an emitted sibling `s`, with all the facts the loop invariant
needs. -/
theorem descend_step {w : Nat} {c x : Pfx} (hc : c.wf w) (hx : x.wf w)
    (hlt : c.nbits < x.nbits) (hxw : x.nbits ≤ w)
    (hcont : gcontains w c x.addr = true) :
    ∃ d s : Pfx,
      ((gcontains w (gdescend w c).1 x.addr = true ∧
        d = (gdescend w c).1 ∧ s = (gdescend w c).2) ∨
       (gcontains w (gdescend w c).1 x.addr = false ∧
        gcontains w (gdescend w c).2 x.addr = true ∧
        d = (gdescend w c).2 ∧ s = (gdescend w c).1)) ∧
      d.wf w ∧ s.wf w ∧ d.nbits = c.nbits + 1 ∧ s.nbits = c.nbits + 1 ∧
      d.addr ≠ s.addr ∧
      gset w s.addr s.nbits = s ∧
      SubsetP w d c ∧ SubsetP w s c ∧ DisjP w s d ∧ DisjP w s x ∧
      gcontains w d x.addr = true ∧
      2 ^ (w - d.nbits) + 2 ^ (w - s.nbits) = 2 ^ (w - c.nbits) ∧
      (x.nbits = c.nbits + 1 → x = d) := by
  have hn1w : c.nbits + 1 ≤ w := by omega
  have hpoweq : (2 : Nat) ^ (w - c.nbits - 1) = 2 ^ (w - (c.nbits + 1)) := by
    rw [Nat.sub_sub]
  have hpow2 : (2 : Nat) ^ (w - c.nbits - 1) * 2 = 2 ^ (w - c.nbits) := by
    have hexp : w - c.nbits - 1 + 1 = w - c.nbits := by omega
    conv_rhs => rw [← hexp]
    rw [Nat.pow_succ]
  have hposK := Nat.two_pow_pos (w - c.nbits - 1)
  have hposK1 := Nat.two_pow_pos (w - (c.nbits + 1))
  have hposN := Nat.two_pow_pos (w - c.nbits)
  have hdvdK : 2 ^ (w - (c.nbits + 1)) ∣ c.addr :=
    Nat.dvd_trans (Nat.pow_dvd_pow 2 (by omega)) (wf_dvd hc)
  have hdvdK1 : 2 ^ (w - (c.nbits + 1)) ∣ 2 ^ (w - c.nbits - 1) := by
    rw [hpoweq]
  have hraddr : c.addr ||| 2 ^ (w - c.nbits - 1) = c.addr + 2 ^ (w - c.nbits - 1) :=
    lor_eq_add (wf_dvd hc) (by omega)
  have hpair : gdescend w c =
      (⟨c.nbits + 1, c.addr⟩, ⟨c.nbits + 1, c.addr + 2 ^ (w - c.nbits - 1)⟩) := by
    unfold gdescend
    rw [if_pos hn1w, hraddr]
  have hrange := range_in_space hc
  have hrlt : c.addr + 2 ^ (w - c.nbits - 1) < 2 ^ w := by omega
  have hlwf : (⟨c.nbits + 1, c.addr⟩ : Pfx).wf w :=
    ⟨hn1w, hc.2.1, (norm_iff_dvd hn1w hc.2.1).mpr hdvdK⟩
  have hrwf : (⟨c.nbits + 1, c.addr + 2 ^ (w - c.nbits - 1)⟩ : Pfx).wf w :=
    ⟨hn1w, hrlt, (norm_iff_dvd hn1w hrlt).mpr (Nat.dvd_add hdvdK hdvdK1)⟩
  have hxa : x.addr < 2 ^ w := hx.2.1
  have hxint := (gcontains_iff hc hxa).mp hcont
  have hlc : gcontains w ⟨c.nbits + 1, c.addr⟩ x.addr = true ↔
      x.addr < c.addr + 2 ^ (w - c.nbits - 1) := by
    rw [gcontains_iff hlwf hxa]
    dsimp only
    omega
  have hrc : gcontains w ⟨c.nbits + 1, c.addr + 2 ^ (w - c.nbits - 1)⟩ x.addr = true ↔
      c.addr + 2 ^ (w - c.nbits - 1) ≤ x.addr := by
    rw [gcontains_iff hrwf hxa]
    dsimp only
    omega
  have hlsub : SubsetP w ⟨c.nbits + 1, c.addr⟩ c := by
    apply subsetP_of_contains hlwf hc (by dsimp only; omega)
    exact (memP_self hc).2
  have hrsub : SubsetP w ⟨c.nbits + 1, c.addr + 2 ^ (w - c.nbits - 1)⟩ c := by
    apply subsetP_of_contains hrwf hc (by dsimp only; omega)
    rw [gcontains_iff hc hrlt]
    omega
  have hdisj : DisjP w (⟨c.nbits + 1, c.addr⟩ : Pfx)
      ⟨c.nbits + 1, c.addr + 2 ^ (w - c.nbits - 1)⟩ :=
    disjP_of_ne hlwf hrwf rfl (by dsimp only; omega)
  by_cases hsplit : x.addr < c.addr + 2 ^ (w - c.nbits - 1)
  · -- descend into the left half, emit the right half
    refine ⟨⟨c.nbits + 1, c.addr⟩, ⟨c.nbits + 1, c.addr + 2 ^ (w - c.nbits - 1)⟩,
      Or.inl ⟨by rw [hpair]; exact hlc.mpr hsplit, by rw [hpair], by rw [hpair]⟩,
      hlwf, hrwf, rfl, rfl, by dsimp only; omega, gset_of_wf hrwf,
      hlsub, hrsub, disjP_symm hdisj, ?_, hlc.mpr hsplit, by dsimp only; omega, ?_⟩
    · -- the emitted right half is disjoint from x, which lies in the left half
      apply disjP_of_subset (b := x) ?_ (disjP_symm hdisj)
      exact subsetP_of_contains hx hlwf (by dsimp only; omega) (hlc.mpr hsplit)
    · intro hxn
      have hxdvd2 : 2 ^ (w - (c.nbits + 1)) ∣ x.addr := by
        have hdx := wf_dvd hx
        rw [hxn] at hdx
        exact hdx
      have haeq : c.addr = x.addr := by
        apply eq_of_dvd_close hdvdK hxdvd2 hxint.1
        omega
      cases x with
      | mk xn xa =>
        simp only at hxn haeq
        simp [hxn, ← haeq]
  · -- descend into the right half, emit the left half
    push_neg at hsplit
    refine ⟨⟨c.nbits + 1, c.addr + 2 ^ (w - c.nbits - 1)⟩, ⟨c.nbits + 1, c.addr⟩,
      Or.inr ⟨?_, by rw [hpair]; exact hrc.mpr hsplit, by rw [hpair], by rw [hpair]⟩,
      hrwf, hlwf, rfl, rfl, by dsimp only; omega, gset_of_wf hlwf,
      hrsub, hlsub, hdisj, ?_, hrc.mpr hsplit, by dsimp only; omega, ?_⟩
    · rw [hpair]
      dsimp only
      rw [Bool.eq_false_iff]
      intro hcl
      have := hlc.mp hcl
      omega
    · apply disjP_of_subset (b := x) ?_ hdisj
      exact subsetP_of_contains hx hrwf (by dsimp only; omega) (hrc.mpr hsplit)
    · intro hxn
      have hxdvd2 : 2 ^ (w - (c.nbits + 1)) ∣ x.addr := by
        have hdx := wf_dvd hx
        rw [hxn] at hdx
        exact hdx
      have haeq : c.addr + 2 ^ (w - c.nbits - 1) = x.addr := by
        apply eq_of_dvd_close (Nat.dvd_add hdvdK hdvdK1) hxdvd2 hsplit
        omega
      cases x with
      | mk xn xa =>
        simp only at hxn haeq
        simp [hxn, ← haeq]

/-- Invariant of the descent loop of `Exclude`, by induction on the fuel:
starting from the two halves of a strict well-formed ancestor `c` of `x`, the
loop returns a list of prefixes, one per depth between `c` and `x`, that are
well formed, contained in `c`, disjoint from `x`, pairwise disjoint, and whose
sizes sum to `2^(w-c.nbits) - 2^(w-x.nbits)`. -/
theorem gexcludeLoop_spec {w : Nat} {x : Pfx} (hx : x.wf w) :
    ∀ (fuel : Nat) (c : Pfx), c.wf w → c.nbits < x.nbits →
    gcontains w c x.addr = true → x.nbits - c.nbits ≤ fuel →
    ∃ L, gexcludeLoop w x fuel (gdescend w c).1 (gdescend w c).2 = some L ∧
      L.length = x.nbits - c.nbits ∧
      (∀ q ∈ L, q.wf w ∧ SubsetP w q c ∧ DisjP w q x) ∧
      L.Pairwise (DisjP w) ∧
      (L.map fun q => 2 ^ (w - q.nbits)).sum + 2 ^ (w - x.nbits) =
        2 ^ (w - c.nbits) := by
  intro fuel
  induction fuel with
  | zero =>
    intro c _ hlt _ hfuel
    omega
  | succ fuel ih =>
    intro c hc hlt hcont hfuel
    obtain ⟨d, s, hbr, hdwf, hswf, hdn, hsn, hadne, hsset, hdsub, hssub, hsd,
      hsx, hdcont, hsum, hxeq⟩ := descend_step hc hx hlt hx.1 hcont
    by_cases hdepth : x.nbits = c.nbits + 1
    · -- the halves reach the depth of x: the loop stops and emits the sibling
      have hxd : x = d := hxeq hdepth
      have hxpow : (2 : Nat) ^ (w - x.nbits) = 2 ^ (w - d.nbits) := by
        rw [hxd]
      rcases hbr with ⟨hclt, hdl, hsr⟩ | ⟨hcl, hcrt, hdr, hsl⟩
      · have heq : gequal (gdescend w c).1 x = true :=
          gequal_iff.mpr (by rw [hxd, hdl])
        refine ⟨[s], ?_, by simp; omega, ?_, by simp, ?_⟩
        · simp only [gexcludeLoop, heq, if_true]
          rw [← hsr, hsset]
        · intro q hq
          rw [List.mem_singleton] at hq
          subst hq
          exact ⟨hswf, hssub, hsx⟩
        · simp only [List.map_cons, List.map_nil, List.sum_cons, List.sum_nil]
          omega
      · have hneql : gequal (gdescend w c).1 x = false := by
          rw [← hsl, Bool.eq_false_iff]
          intro hgl
          have hseq := gequal_iff.mp hgl
          rw [hxd] at hseq
          exact hadne (by rw [hseq])
        have heqr : gequal (gdescend w c).2 x = true :=
          gequal_iff.mpr (by rw [hxd, hdr])
        refine ⟨[s], ?_, by simp; omega, ?_, by simp, ?_⟩
        · simp only [gexcludeLoop, hneql, heqr, Bool.false_eq_true, if_false,
            if_true]
          rw [← hsl, hsset]
        · intro q hq
          rw [List.mem_singleton] at hq
          subst hq
          exact ⟨hswf, hssub, hsx⟩
        · simp only [List.map_cons, List.map_nil, List.sum_cons, List.sum_nil]
          omega
    · -- the halves are still strictly above x: one loop iteration, then recurse
      have hd2 : c.nbits + 1 < x.nbits := by omega
      have hln : (gdescend w c).1.nbits = c.nbits + 1 := rfl
      have hrn : (gdescend w c).2.nbits = c.nbits + 1 := rfl
      have hneq1 : gequal (gdescend w c).1 x = false := by
        rw [Bool.eq_false_iff]
        intro hgl
        have := congrArg Pfx.nbits (gequal_iff.mp hgl)
        rw [hln] at this
        omega
      have hneq2 : gequal (gdescend w c).2 x = false := by
        rw [Bool.eq_false_iff]
        intro hgl
        have := congrArg Pfx.nbits (gequal_iff.mp hgl)
        rw [hrn] at this
        omega
      have hdlt : d.nbits < x.nbits := by omega
      have hdfuel : x.nbits - d.nbits ≤ fuel := by omega
      obtain ⟨L1, hL1eq, hL1len, hL1mem, hL1pw, hL1sum⟩ :=
        ih d hdwf hdlt hdcont hdfuel
      have hcommon : ∀ hres : gexcludeLoop w x (fuel + 1) (gdescend w c).1
            (gdescend w c).2 = some (s :: L1),
          ∃ L, gexcludeLoop w x (fuel + 1) (gdescend w c).1 (gdescend w c).2 =
              some L ∧
            L.length = x.nbits - c.nbits ∧
            (∀ q ∈ L, q.wf w ∧ SubsetP w q c ∧ DisjP w q x) ∧
            L.Pairwise (DisjP w) ∧
            (L.map fun q => 2 ^ (w - q.nbits)).sum + 2 ^ (w - x.nbits) =
              2 ^ (w - c.nbits) := by
        intro hres
        refine ⟨s :: L1, hres, ?_, ?_, ?_, ?_⟩
        · simp only [List.length_cons]
          omega
        · intro q hq
          rcases List.mem_cons.mp hq with hq | hq
          · subst hq
            exact ⟨hswf, hssub, hsx⟩
          · obtain ⟨hqwf, hqsub, hqx⟩ := hL1mem q hq
            exact ⟨hqwf, subsetP_trans hqsub hdsub, hqx⟩
        · apply List.Pairwise.cons
          · intro q hq
            exact disjP_of_subset (hL1mem q hq).2.1 hsd
          · exact hL1pw
        · simp only [List.map_cons, List.sum_cons]
          omega
      rcases hbr with ⟨hclt, hdl, hsr⟩ | ⟨hcl, hcrt, hdr, hsl⟩
      · apply hcommon
        simp only [gexcludeLoop, hneq1, hneq2, Bool.false_eq_true, if_false,
          hclt, if_true]
        rw [← hdl, hL1eq, ← hsr, hsset]
        rfl
      · apply hcommon
        simp only [gexcludeLoop, hneq1, hneq2, Bool.false_eq_true, if_false,
          hcl, hcrt, if_true]
        rw [← hdr, hL1eq, ← hsl, hsset]
        rfl


/-- If the excluded prefix's address is not contained, `Exclude` returns the
empty (nil) list at once (`ipv4.go` line 253, `ipv6.go` line 241). -/
theorem gexclude_not_contained {w : Nat} {p x : Pfx}
    (h : gcontains w p x.addr = false) : gexclude w p x = some [] := by
  simp [gexclude, h]

/-- Full specification of `Exclude` on a strictly contained prefix. -/
theorem gexclude_spec {w : Nat} {p x : Pfx} (hp : p.wf w) (hx : x.wf w)
    (hlt : p.nbits < x.nbits) (hcont : gcontains w p x.addr = true) :
    ∃ L, gexclude w p x = some L ∧
      L.length = x.nbits - p.nbits ∧
      (∀ q ∈ L, q.wf w ∧ SubsetP w q p ∧ DisjP w q x) ∧
      L.Pairwise (DisjP w) ∧
      (L.map fun q => gnumaddr w q).sum + gnumaddr w x = gnumaddr w p := by
  have hneq : gequal p x = false := by
    rw [Bool.eq_false_iff]
    intro hgl
    have := congrArg Pfx.nbits (gequal_iff.mp hgl)
    omega
  obtain ⟨L, hLeq, hLlen, hLmem, hLpw, hLsum⟩ :=
    gexcludeLoop_spec hx (w + 1) p hp hlt hcont (by have := hx.1; omega)
  refine ⟨L, ?_, hLlen, hLmem, hLpw, ?_⟩
  · simp only [gexclude, hcont, Bool.true_eq_false, if_false, hneq,
      Bool.false_eq_true]
    exact hLeq
  · have hm : L.map (fun q => gnumaddr w q) = L.map fun q => 2 ^ (w - q.nbits) := by
      apply List.map_congr_left
      intro q hq
      exact gnumaddr_eq (hLmem q hq).1.1
    rw [hm, gnumaddr_eq hx.1, gnumaddr_eq hp.1]
    omega

example :
    gexclude 32 ⟨8, 0x0A000000⟩ ⟨16, 0x0A010000⟩ =
      some [⟨9, 0x0A800000⟩, ⟨10, 0x0A400000⟩, ⟨11, 0x0A200000⟩,
        ⟨12, 0x0A100000⟩, ⟨13, 0x0A080000⟩, ⟨14, 0x0A040000⟩,
        ⟨15, 0x0A020000⟩, ⟨16, 0x0A000000⟩] := by decide

/-- C1: for every pair of same-family prefixes `p` and `x` with `x` strictly
contained in `p` (`x.Len() > p.Len()` and `p` contains `x`'s address), the
list `S = p.Exclude(x)` has exactly `x.Len() - p.Len()` elements, the
elements of `S` are pairwise disjoint and each is disjoint from `x`, and the
sum of `NumAddr` over `S` equals `NumAddr(p) - NumAddr(x)`. -/
theorem C1_exclude_law (P X : IPPfx) (hfam : sameFam P X = true)
    (hP : P.wfP) (hX : X.wfP) (hlen : P.lenP < X.lenP)
    (hcont : gcontains P.width P.pfx X.pfx.addr = true) :
    ∃ S, Exclude P X = some S ∧
      S.length = X.lenP - P.lenP ∧
      S.Pairwise DisjPfx ∧
      (∀ s ∈ S, DisjPfx s X) ∧
      (S.map NumAddr).sum = NumAddr P - NumAddr X := by
  cases P with
  | v4 p =>
    cases X with
    | v4 x =>
      dsimp only [IPPfx.pfx, IPPfx.width, IPPfx.lenP, IPPfx.wfP] at hP hX hlen hcont ⊢
      obtain ⟨L, hLeq, hLlen, hLmem, hLpw, hLsum⟩ :=
        gexclude_spec (w := 32) hP hX hlen hcont
      refine ⟨L.map IPPfx.v4, ?_, ?_, ?_, ?_, ?_⟩
      · show (gexclude 32 p x).map (List.map IPPfx.v4) = _
        rw [hLeq]
        rfl
      · rw [List.length_map]
        exact hLlen
      · rw [List.pairwise_map]
        exact hLpw.imp (fun h => h)
      · intro s hs
        rw [List.mem_map] at hs
        obtain ⟨q, hq, rfl⟩ := hs
        exact (hLmem q hq).2.2
      · rw [List.map_map]
        have hsum2 : (L.map fun q => gnumaddr 32 q).sum + gnumaddr 32 x =
            gnumaddr 32 p := hLsum
        show (L.map fun q => gnumaddr 32 q).sum = gnumaddr 32 p - gnumaddr 32 x
        omega
    | v6 x => simp [sameFam] at hfam
  | v6 p =>
    cases X with
    | v4 x => simp [sameFam] at hfam
    | v6 x =>
      dsimp only [IPPfx.pfx, IPPfx.width, IPPfx.lenP, IPPfx.wfP] at hP hX hlen hcont ⊢
      obtain ⟨L, hLeq, hLlen, hLmem, hLpw, hLsum⟩ :=
        gexclude_spec (w := 128) hP hX hlen hcont
      refine ⟨L.map IPPfx.v6, ?_, ?_, ?_, ?_, ?_⟩
      · show (gexclude 128 p x).map (List.map IPPfx.v6) = _
        rw [hLeq]
        rfl
      · rw [List.length_map]
        exact hLlen
      · rw [List.pairwise_map]
        exact hLpw.imp (fun h => h)
      · intro s hs
        rw [List.mem_map] at hs
        obtain ⟨q, hq, rfl⟩ := hs
        exact (hLmem q hq).2.2
      · rw [List.map_map]
        have hsum2 : (L.map fun q => gnumaddr 128 q).sum + gnumaddr 128 x =
            gnumaddr 128 p := hLsum
        show (L.map fun q => gnumaddr 128 q).sum = gnumaddr 128 p - gnumaddr 128 x
        omega

/-- Witness for C1 at the specification's own example
`10.0.0.0/8 \ 10.1.0.0/16` (8 result prefixes). -/
theorem C1_exclude_law_witness :
    (sameFam (.v4 ⟨8, 0x0A000000⟩) (.v4 ⟨16, 0x0A010000⟩) = true ∧
     (IPPfx.v4 ⟨8, 0x0A000000⟩).wfP ∧ (IPPfx.v4 ⟨16, 0x0A010000⟩).wfP ∧
     (IPPfx.v4 ⟨8, 0x0A000000⟩).lenP < (IPPfx.v4 ⟨16, 0x0A010000⟩).lenP ∧
     gcontains (IPPfx.v4 ⟨8, 0x0A000000⟩).width (IPPfx.v4 ⟨8, 0x0A000000⟩).pfx
       (IPPfx.v4 ⟨16, 0x0A010000⟩).pfx.addr = true) ∧
    (∃ S, Exclude (.v4 ⟨8, 0x0A000000⟩) (.v4 ⟨16, 0x0A010000⟩) = some S ∧
      S.length = (IPPfx.v4 ⟨16, 0x0A010000⟩).lenP -
        (IPPfx.v4 ⟨8, 0x0A000000⟩).lenP ∧
      S.Pairwise DisjPfx ∧
      (∀ s ∈ S, DisjPfx s (.v4 ⟨16, 0x0A010000⟩)) ∧
      (S.map NumAddr).sum = NumAddr (.v4 ⟨8, 0x0A000000⟩) -
        NumAddr (.v4 ⟨16, 0x0A010000⟩)) :=
  ⟨⟨by decide, by decide, by decide, by decide, by decide⟩,
   C1_exclude_law _ _ (by decide) (by decide) (by decide) (by decide) (by decide)⟩

/-- C6 (amended): for every pair of same-family prefixes `p` and `x` such
that `p` does not contain `x`'s address (`x.Addr() & netmask(p.Len()) ≠
p.Addr()`), `p.Exclude(x)` returns an empty result.  (The containment guard
in the code tests only `x`'s address; when `x`'s address lies in `p` but `x`
strictly contains `p`, the descent loop never returns, see
`C6_counterexample`.) -/
theorem C6_exclude_guard_amended (P X : IPPfx) (hfam : sameFam P X = true)
    (hcont : gcontains P.width P.pfx X.pfx.addr = false) :
    Exclude P X = some [] := by
  cases P with
  | v4 p =>
    cases X with
    | v4 x =>
      dsimp only [IPPfx.pfx, IPPfx.width] at hcont
      show (gexclude 32 p x).map (List.map IPPfx.v4) = some []
      rw [gexclude_not_contained hcont]
      rfl
    | v6 x => simp [sameFam] at hfam
  | v6 p =>
    cases X with
    | v4 x => simp [sameFam] at hfam
    | v6 x =>
      dsimp only [IPPfx.pfx, IPPfx.width] at hcont
      show (gexclude 128 p x).map (List.map IPPfx.v6) = some []
      rw [gexclude_not_contained hcont]
      rfl

theorem C6_exclude_guard_amended_witness :
    (sameFam (.v4 ⟨8, 0x0A000000⟩) (.v4 ⟨16, 0xC0A80000⟩) = true ∧
     gcontains (IPPfx.v4 ⟨8, 0x0A000000⟩).width (IPPfx.v4 ⟨8, 0x0A000000⟩).pfx
       (IPPfx.v4 ⟨16, 0xC0A80000⟩).pfx.addr = false) ∧
    Exclude (.v4 ⟨8, 0x0A000000⟩) (.v4 ⟨16, 0xC0A80000⟩) = some [] :=
  ⟨⟨by decide, by decide⟩,
   C6_exclude_guard_amended _ _ (by decide) (by decide)⟩

/-- C6 counterexample: `x = 0.0.0.0/4` is not contained in `p = 0.0.0.0/8`
as an address set (`8.0.0.0 = 2^27` is in `x` but not in `p`), yet
`p.Exclude(x)` does not return an empty result: because `p` contains `x`'s
address the guard is passed, and the descent loop then never terminates
(modelled by `none`). -/
theorem C6_counterexample :
    sameFam (.v4 ⟨8, 0⟩) (.v4 ⟨4, 0⟩) = true ∧
    (IPPfx.v4 ⟨8, 0⟩).wfP ∧ (IPPfx.v4 ⟨4, 0⟩).wfP ∧
    memAP (.v4 ⟨4, 0⟩) (2 ^ 27) ∧ ¬ memAP (.v4 ⟨8, 0⟩) (2 ^ 27) ∧
    Exclude (.v4 ⟨8, 0⟩) (.v4 ⟨4, 0⟩) ≠ some [] := by decide

theorem pcompare_antisym (a b : Pfx) : pcompare a b = -pcompare b a := by
  unfold pcompare
  rcases Nat.lt_trichotomy a.addr b.addr with h | h | h
  · simp [h, Nat.lt_asymm h]
  · rw [h]
    rcases Nat.lt_trichotomy a.nbits b.nbits with h2 | h2 | h2
    · simp [h2, Nat.lt_asymm h2, Nat.lt_irrefl]
    · simp [h2, Nat.lt_irrefl]
    · simp [h2, Nat.lt_asymm h2, Nat.lt_irrefl]
  · simp [h, Nat.lt_asymm h]

theorem pcompare_eq_zero (a b : Pfx) : pcompare a b = 0 ↔ a = b := by
  unfold pcompare
  constructor
  · intro h
    rcases Nat.lt_trichotomy a.addr b.addr with h1 | h1 | h1
    · simp [h1] at h
    · rcases Nat.lt_trichotomy a.nbits b.nbits with h2 | h2 | h2
      · simp [h1, h2, Nat.lt_irrefl] at h
      · cases a; cases b
        simp only at h1 h2
        simp [h1, h2]
      · simp [h1, h2, Nat.lt_irrefl, Nat.lt_asymm h2] at h
    · simp [h1, Nat.lt_asymm h1] at h
  · intro h
    subst h
    simp [Nat.lt_irrefl]

theorem pcompare_lt_addr {a b : Pfx} (h : a.addr < b.addr) : pcompare a b = -1 := by
  simp [pcompare, h]

theorem pcompare_lt_nbits {a b : Pfx} (h1 : a.addr = b.addr)
    (h2 : a.nbits < b.nbits) : pcompare a b = -1 := by
  simp [pcompare, h1, h2, Nat.lt_irrefl]

/-- C4 (amended): restricted to same-family pairs, `Compare` is the total
order by address in network byte order with ties broken by prefix length
ascending: `Compare(a,b) = -Compare(b,a)` and `Compare(a,b) = 0` exactly when
`a = b`.  Across families there is no fixed precedence rule: `Compare`
returns `-1` for every cross-family pair, in both directions (see
`C4_counterexample`). -/
theorem C4_compare_amended :
    (∀ a b : IPPfx, sameFam a b = true →
      Compare a b = -Compare b a ∧
      (Compare a b = 0 ↔ a = b) ∧
      (a.pfx.addr < b.pfx.addr → Compare a b = -1) ∧
      (a.pfx.addr = b.pfx.addr → a.lenP < b.lenP → Compare a b = -1)) ∧
    (∀ a b : IPPfx, sameFam a b = false → Compare a b = -1) := by
  constructor
  · intro a b hfam
    cases a with
    | v4 a =>
      cases b with
      | v4 b =>
        refine ⟨pcompare_antisym a b, ?_, fun h => pcompare_lt_addr h,
          fun h1 h2 => pcompare_lt_nbits h1 h2⟩
        rw [show Compare (.v4 a) (.v4 b) = pcompare a b from rfl,
          pcompare_eq_zero]
        constructor
        · intro h; rw [h]
        · intro h; cases h; rfl
      | v6 b => simp [sameFam] at hfam
    | v6 a =>
      cases b with
      | v4 b => simp [sameFam] at hfam
      | v6 b =>
        refine ⟨pcompare_antisym a b, ?_, fun h => pcompare_lt_addr h,
          fun h1 h2 => pcompare_lt_nbits h1 h2⟩
        rw [show Compare (.v6 a) (.v6 b) = pcompare a b from rfl,
          pcompare_eq_zero]
        constructor
        · intro h; rw [h]
        · intro h; cases h; rfl
  · intro a b hfam
    cases a <;> cases b <;> first
      | rfl
      | simp [sameFam] at hfam

theorem C4_compare_amended_witness :
    (sameFam (.v4 ⟨24, 0x0A000000⟩) (.v4 ⟨16, 0x0A000000⟩) = true ∧
     (Compare (.v4 ⟨24, 0x0A000000⟩) (.v4 ⟨16, 0x0A000000⟩) =
       -Compare (.v4 ⟨16, 0x0A000000⟩) (.v4 ⟨24, 0x0A000000⟩) ∧
      (Compare (.v4 ⟨24, 0x0A000000⟩) (.v4 ⟨16, 0x0A000000⟩) = 0 ↔
        (IPPfx.v4 ⟨24, 0x0A000000⟩) = .v4 ⟨16, 0x0A000000⟩) ∧
      ((IPPfx.v4 ⟨24, 0x0A000000⟩).pfx.addr <
          (IPPfx.v4 ⟨16, 0x0A000000⟩).pfx.addr →
        Compare (.v4 ⟨24, 0x0A000000⟩) (.v4 ⟨16, 0x0A000000⟩) = -1) ∧
      ((IPPfx.v4 ⟨24, 0x0A000000⟩).pfx.addr =
          (IPPfx.v4 ⟨16, 0x0A000000⟩).pfx.addr →
        (IPPfx.v4 ⟨24, 0x0A000000⟩).lenP < (IPPfx.v4 ⟨16, 0x0A000000⟩).lenP →
        Compare (.v4 ⟨24, 0x0A000000⟩) (.v4 ⟨16, 0x0A000000⟩) = -1))) ∧
    (sameFam (.v4 ⟨0, 0⟩) (.v6 ⟨0, 0⟩) = false ∧
     Compare (.v4 ⟨0, 0⟩) (.v6 ⟨0, 0⟩) = -1) :=
  ⟨⟨by decide, C4_compare_amended.1 _ _ (by decide)⟩,
   ⟨by decide, C4_compare_amended.2 _ _ (by decide)⟩⟩

/-- C4 counterexample: across families `Compare` returns `-1` in both
directions, so it is not antisymmetric and V4 does not precede V6 under any
total order. -/
theorem C4_counterexample :
    Compare (.v4 ⟨0, 0⟩) (.v6 ⟨0, 0⟩) = -1 ∧
    Compare (.v6 ⟨0, 0⟩) (.v4 ⟨0, 0⟩) = -1 ∧
    ¬ Compare (.v4 ⟨0, 0⟩) (.v6 ⟨0, 0⟩) =
        -Compare (.v6 ⟨0, 0⟩) (.v4 ⟨0, 0⟩) := by decide

/-- C5 (amended): every binary operation between two prefixes of different
families yields the neutral result and never panics: `Overlaps` and `Equal`
return `false` and `Compare` returns `-1`.  `Contains` with an address of
the other family is excepted: an IPv4 prefix panics on a (non-mapped) IPv6
address, and an IPv6 prefix tests the IPv4-mapped form of an IPv4 address,
which can return `true` (see `C5_counterexample`). -/
theorem C5_cross_family_amended (a b : IPPfx) (hfam : sameFam a b = false) :
    Overlaps a b = false ∧ Equal a b = false ∧ Compare a b = -1 := by
  cases a <;> cases b <;> first
    | exact ⟨rfl, rfl, rfl⟩
    | simp [sameFam] at hfam

theorem C5_cross_family_amended_witness :
    (sameFam (.v4 ⟨0, 0⟩) (.v6 ⟨0, 0⟩) = false) ∧
    (Overlaps (.v4 ⟨0, 0⟩) (.v6 ⟨0, 0⟩) = false ∧
     Equal (.v4 ⟨0, 0⟩) (.v6 ⟨0, 0⟩) = false ∧
     Compare (.v4 ⟨0, 0⟩) (.v6 ⟨0, 0⟩) = -1) :=
  ⟨by decide, C5_cross_family_amended _ _ (by decide)⟩

/-- C5 counterexample: `Contains` across families is neither `false` nor
panic-free.  The IPv6 default route `::/0` applied to the IPv4 address
`0.0.0.0` returns `true` (the address is converted to its IPv4-mapped form
by `To16`), and an IPv4 prefix applied to the IPv6 address `2001:db8::1`
panics in `ipToIPv4Int` (`To4` returns nil), modelled by `none`. -/
theorem C5_counterexample :
    ContainsIP (.v6 ⟨0, 0⟩) (.v4 0) = some true ∧
    ContainsIP (.v4 ⟨0, 0⟩) (.v6 0x20010db8000000000000000000000001) =
      none := by decide

theorem bitlenAux_le_iff :
    ∀ (fuel x n : Nat), x ≤ fuel → (bitlenAux fuel x ≤ n ↔ x < 2 ^ n) := by
  intro fuel
  induction fuel with
  | zero =>
    intro x n hx
    have hx0 : x = 0 := by omega
    subst hx0
    simp only [bitlenAux]
    exact iff_of_true (Nat.zero_le n) (Nat.two_pow_pos n)
  | succ fuel ih =>
    intro x n hx
    by_cases hx0 : x = 0
    · subst hx0
      simp only [bitlenAux, if_pos rfl]
      exact iff_of_true (Nat.zero_le n) (Nat.two_pow_pos n)
    · have hstep : bitlenAux (fuel + 1) x = bitlenAux fuel (x / 2) + 1 := by
        simp [bitlenAux, hx0]
      rw [hstep]
      cases n with
      | zero => exact iff_of_false (by omega) (by omega)
      | succ m =>
        have hdiv : x / 2 ≤ fuel := by omega
        rw [Nat.succ_le_succ_iff, ih (x / 2) m hdiv, Nat.pow_succ]
        omega

theorem bitlen_le_iff (x n : Nat) : bitlen x ≤ n ↔ x < 2 ^ n :=
  bitlenAux_le_iff x x n (Nat.le_refl x)

theorem lt_two_pow_bitlen (x : Nat) : x < 2 ^ bitlen x :=
  (bitlen_le_iff x (bitlen x)).mp (Nat.le_refl _)

theorem bitlen_pos {x : Nat} (h : x ≠ 0) : 0 < bitlen x := by
  by_contra h0
  push_neg at h0
  have := (bitlen_le_iff x 0).mp (by omega)
  omega

theorem two_pow_bitlen_sub_one_le {x : Nat} (h : x ≠ 0) :
    2 ^ (bitlen x - 1) ≤ x := by
  by_contra hlt
  push_neg at hlt
  have h1 := (bitlen_le_iff x (bitlen x - 1)).mpr hlt
  have h2 := bitlen_pos h
  omega

theorem bitlen_mul_two_pow {x : Nat} (h : x ≠ 0) (k : Nat) :
    bitlen (x * 2 ^ k) = bitlen x + k := by
  apply Nat.le_antisymm
  · rw [bitlen_le_iff, Nat.pow_add]
    exact Nat.mul_lt_mul_of_lt_of_le (lt_two_pow_bitlen x) (Nat.le_refl _)
      (Nat.two_pow_pos k)
  · by_contra hlt
    push_neg at hlt
    have hb := bitlen_pos h
    have h1 : x * 2 ^ k < 2 ^ (bitlen x + k - 1) :=
      (bitlen_le_iff _ _).mp (by omega)
    have h2 : (2 : Nat) ^ (bitlen x + k - 1) = 2 ^ (bitlen x - 1) * 2 ^ k := by
      rw [← Nat.pow_add]
      congr 1
      omega
    rw [h2] at h1
    have h3 : x < 2 ^ (bitlen x - 1) := Nat.lt_of_mul_lt_mul_right h1
    have h4 := (bitlen_le_iff _ _).mpr h3
    omega

theorem bitlen_two_pow (k : Nat) : bitlen (2 ^ k) = k + 1 := by
  apply Nat.le_antisymm
  · rw [bitlen_le_iff]
    exact Nat.pow_lt_pow_right (by omega) (by omega)
  · by_contra hlt
    push_neg at hlt
    have := (bitlen_le_iff (2 ^ k) k).mp (by omega)
    omega

theorem testBit_bitlen {x : Nat} (hx : x ≠ 0) :
    Nat.testBit x (bitlen x - 1) = true := by
  have h1 := two_pow_bitlen_sub_one_le hx
  have h2 := lt_two_pow_bitlen x
  have hb := bitlen_pos hx
  have hpow : (2 : Nat) ^ bitlen x = 2 ^ (bitlen x - 1) * 2 := by
    rw [← Nat.pow_succ]
    congr 1
    omega
  have hdiv : x / 2 ^ (bitlen x - 1) = 1 := by
    apply Nat.div_eq_of_lt_le (by omega)
    omega
  rw [Nat.testBit_to_div_mod, hdiv]
  decide

theorem smear_step {x s m k : Nat} (hm : k = m + m)
    (h : ∀ j, Nat.testBit s j = true ↔
      ∃ d, d < m ∧ Nat.testBit x (j + d) = true) (j : Nat) :
    Nat.testBit (s ||| s >>> m) j = true ↔
      ∃ d, d < k ∧ Nat.testBit x (j + d) = true := by
  subst hm
  rw [Nat.testBit_or, Nat.testBit_shiftRight, Bool.or_eq_true, h, h]
  constructor
  · rintro (⟨d, hd, ht⟩ | ⟨d, hd, ht⟩)
    · exact ⟨d, by omega, ht⟩
    · refine ⟨m + d, by omega, ?_⟩
      rw [show j + (m + d) = m + j + d by omega]
      exact ht
  · rintro ⟨d, hd, ht⟩
    by_cases hdm : d < m
    · exact Or.inl ⟨d, hdm, ht⟩
    · refine Or.inr ⟨d - m, by omega, ?_⟩
      rw [show m + j + (d - m) = j + d by omega]
      exact ht

theorem two_pow_sub_one_xor {w b : Nat} (h : b ≤ w) :
    (2 ^ b - 1) ^^^ (2 ^ w - 1) = gmask w (w - b) := by
  apply Nat.eq_of_testBit_eq
  intro j
  rw [Nat.testBit_xor, gmask_eq_mul (show w - b ≤ w by omega)]
  rw [show w - (w - b) = b by omega, Nat.testBit_mul_pow_two]
  simp only [Nat.testBit_two_pow_sub_one]
  by_cases h1 : j < b
  · simp [h1, (show j < w by omega), (show ¬ (b ≤ j) by omega)]
  · by_cases h2 : j < w
    · simp [h1, h2, (show b ≤ j by omega), (show j - b < w - b by omega)]
    · simp [h1, h2, (show b ≤ j by omega), (show ¬ (j - b < w - b) by omega)]

theorem npop32_gmask : ∀ n < 33, npop32 (gmask 32 n) = n := by decide

theorem nlz32_eq {x : Nat} (hx : x < 2 ^ 32) : nlz32 x = 32 - bitlen x := by
  have h0 : ∀ j, Nat.testBit x j = true ↔
      ∃ d, d < 1 ∧ Nat.testBit x (j + d) = true := by
    intro j
    constructor
    · intro ht
      exact ⟨0, by omega, by simpa using ht⟩
    · rintro ⟨d, hd, ht⟩
      rw [show d = 0 by omega] at ht
      simpa using ht
  have h1 := smear_step (m := 1) (k := 2) rfl h0
  have h2 := smear_step (m := 2) (k := 4) rfl h1
  have h3 := smear_step (m := 4) (k := 8) rfl h2
  have h4 := smear_step (m := 8) (k := 16) rfl h3
  have h5 := smear_step (m := 16) (k := 32) rfl h4
  have hble : bitlen x ≤ 32 := (bitlen_le_iff x 32).mpr hx
  have hsmear :
      (let s1 := x ||| x >>> 1
       let s2 := s1 ||| s1 >>> 2
       let s3 := s2 ||| s2 >>> 4
       let s4 := s3 ||| s3 >>> 8
       s4 ||| s4 >>> 16) = 2 ^ bitlen x - 1 := by
    apply Nat.eq_of_testBit_eq
    intro j
    rw [Bool.eq_iff_iff, h5 j, Nat.testBit_two_pow_sub_one, decide_eq_true_eq]
    constructor
    · rintro ⟨d, _, ht⟩
      have hge := Nat.testBit_implies_ge ht
      have hnl : ¬ (x < 2 ^ (j + d)) := by omega
      have hgt : ¬ (bitlen x ≤ j + d) := fun hc => hnl ((bitlen_le_iff _ _).mp hc)
      omega
    · intro hj
      have hx0 : x ≠ 0 := by
        intro h0
        subst h0
        simp [bitlen, bitlenAux] at hj
      refine ⟨bitlen x - 1 - j, by omega, ?_⟩
      rw [show j + (bitlen x - 1 - j) = bitlen x - 1 by omega]
      exact testBit_bitlen hx0
  show npop32 ((let s1 := x ||| x >>> 1
    let s2 := s1 ||| s1 >>> 2
    let s3 := s2 ||| s2 >>> 4
    let s4 := s3 ||| s3 >>> 8
    s4 ||| s4 >>> 16) ^^^ 0xffffffff) = 32 - bitlen x
  rw [hsmear, show (0xffffffff : Nat) = 2 ^ 32 - 1 by norm_num,
    two_pow_sub_one_xor hble]
  exact npop32_gmask (32 - bitlen x) (by omega)

theorem aligned_land_zero {a b k : Nat} (hd : 2 ^ k ∣ a) (hb : b < 2 ^ k) :
    a &&& b = 0 := by
  obtain ⟨c, hc⟩ := hd
  subst hc
  apply Nat.eq_of_testBit_eq
  intro j
  rw [Nat.testBit_and, Nat.testBit_mul_pow_two, Nat.zero_testBit]
  by_cases hj : k ≤ j
  · have : b < 2 ^ j := Nat.lt_of_lt_of_le hb (two_pow_le_two_pow hj)
    simp [Nat.testBit_lt_two_pow this]
  · simp [hj]

theorem xor_lor_cancel {a b : Nat} (h : a &&& b = 0) : a ^^^ (a ||| b) = b := by
  apply Nat.eq_of_testBit_eq
  intro j
  have hj := congrArg (fun z => Nat.testBit z j) h
  simp only [Nat.testBit_and, Nat.zero_testBit] at hj
  rw [Nat.testBit_xor, Nat.testBit_or]
  cases ha : Nat.testBit a j
  · simp
  · rw [ha] at hj
    simp at hj
    simp [hj]

theorem foldl_congr_fn {α β : Type} {f g : β → α → β} :
    ∀ (l : List α) (b : β), (∀ y a, a ∈ l → f y a = g y a) →
    l.foldl f b = l.foldl g b := by
  intro l
  induction l with
  | nil => intro b _; rfl
  | cons a l ih =>
    intro b h
    rw [List.foldl_cons, List.foldl_cons, h b a (List.mem_cons_self a l)]
    exact ih _ (fun y a2 ha2 => h y a2 (List.mem_cons_of_mem a ha2))

theorem supfold_step_ge {w base m B nb0 : Nat} {s : Pfx} (h0 : B ≤ nb0)
    (hs : ((base ^^^ s.addr) &&& m) ≠ 0 → B ≤ gnlz w ((base ^^^ s.addr) &&& m)) :
    B ≤ (if ((base ^^^ s.addr) &&& m) ≠ 0 then
      (if gnlz w ((base ^^^ s.addr) &&& m) < nb0 then
        gnlz w ((base ^^^ s.addr) &&& m) else nb0) else nb0) := by
  by_cases hd : ((base ^^^ s.addr) &&& m) ≠ 0
  · have := hs hd
    by_cases hlt : gnlz w ((base ^^^ s.addr) &&& m) < nb0 <;> simp [hd, hlt] <;> omega
  · simpa [hd] using h0

theorem supfold_ge {w base m B : Nat} :
    ∀ (l : List Pfx) (nb0 : Nat), B ≤ nb0 →
    (∀ s ∈ l, ((base ^^^ s.addr) &&& m) ≠ 0 →
      B ≤ gnlz w ((base ^^^ s.addr) &&& m)) →
    B ≤ l.foldl (fun nb s => if ((base ^^^ s.addr) &&& m) ≠ 0 then
      (if gnlz w ((base ^^^ s.addr) &&& m) < nb then
        gnlz w ((base ^^^ s.addr) &&& m) else nb) else nb) nb0 := by
  intro l
  induction l with
  | nil =>
    intro nb0 h0 _
    simpa using h0
  | cons s l ih =>
    intro nb0 h0 hall
    rw [List.foldl_cons]
    exact ih _ (supfold_step_ge h0 (hall s (List.mem_cons_self s l)))
      (fun q hq => hall q (List.mem_cons_of_mem s hq))

theorem supfold_stay {w base m B : Nat} :
    ∀ (l : List Pfx),
    (∀ s ∈ l, ((base ^^^ s.addr) &&& m) ≠ 0 →
      B ≤ gnlz w ((base ^^^ s.addr) &&& m)) →
    l.foldl (fun nb s => if ((base ^^^ s.addr) &&& m) ≠ 0 then
      (if gnlz w ((base ^^^ s.addr) &&& m) < nb then
        gnlz w ((base ^^^ s.addr) &&& m) else nb) else nb) B = B := by
  intro l
  induction l with
  | nil => intro _; rfl
  | cons s l ih =>
    intro hall
    rw [List.foldl_cons]
    have hstep : (if ((base ^^^ s.addr) &&& m) ≠ 0 then
        (if gnlz w ((base ^^^ s.addr) &&& m) < B then
          gnlz w ((base ^^^ s.addr) &&& m) else B) else B) = B := by
      by_cases hd : ((base ^^^ s.addr) &&& m) ≠ 0
      · have := hall s (List.mem_cons_self s l) hd
        have hnlt : ¬ gnlz w ((base ^^^ s.addr) &&& m) < B := by omega
        simp [hd, hnlt]
      · simp [hd]
    rw [hstep]
    exact ih (fun q hq => hall q (List.mem_cons_of_mem s hq))

theorem supfold_attain {w base m B : Nat} :
    ∀ (l : List Pfx) (nb0 : Nat), B ≤ nb0 →
    (∀ s ∈ l, ((base ^^^ s.addr) &&& m) ≠ 0 →
      B ≤ gnlz w ((base ^^^ s.addr) &&& m)) →
    (∃ t ∈ l, ((base ^^^ t.addr) &&& m) ≠ 0 ∧
      gnlz w ((base ^^^ t.addr) &&& m) = B) →
    l.foldl (fun nb s => if ((base ^^^ s.addr) &&& m) ≠ 0 then
      (if gnlz w ((base ^^^ s.addr) &&& m) < nb then
        gnlz w ((base ^^^ s.addr) &&& m) else nb) else nb) nb0 = B := by
  intro l
  induction l with
  | nil =>
    rintro nb0 _ _ ⟨t, ht, _⟩
    exact absurd ht (List.not_mem_nil t)
  | cons s l ih =>
    rintro nb0 h0 hall ⟨t, ht, htne, htv⟩
    rw [List.foldl_cons]
    rcases List.mem_cons.mp ht with rfl | htl
    · have hstep : (if ((base ^^^ t.addr) &&& m) ≠ 0 then
          (if gnlz w ((base ^^^ t.addr) &&& m) < nb0 then
            gnlz w ((base ^^^ t.addr) &&& m) else nb0) else nb0) = B := by
        rw [if_pos htne, htv]
        by_cases hlt : B < nb0
        · simp [hlt]
        · have : nb0 = B := by omega
          simp [this]
      rw [hstep]
      exact supfold_stay l (fun q hq => hall q (List.mem_cons_of_mem t hq))
    · exact ih _ (supfold_step_ge h0 (hall s (List.mem_cons_self s l)))
        (fun q hq => hall q (List.mem_cons_of_mem s hq)) ⟨t, htl, htne, htv⟩

/-- `Subnets` in closed form: the `2^n` children are
`p.addr + i·2^(w-nbits-n)` at length `nbits + n`. -/
theorem gsubnets_spec {w : Nat} {p : Pfx} (hp : p.wf w) {n : Nat}
    (hn : p.nbits + n ≤ w) :
    gsubnets w p n = some ((List.range (2 ^ n)).map fun i =>
      ⟨p.nbits + n, p.addr + i * 2 ^ (w - p.nbits - n)⟩) := by
  rw [gsubnets, if_neg (by omega)]
  congr 1
  apply List.map_congr_left
  intro i hi
  rw [List.mem_range] at hi
  have hoff : w - p.nbits - n + n = w - p.nbits := by omega
  have hib : i * 2 ^ (w - p.nbits - n) < 2 ^ (w - p.nbits) := by
    calc i * 2 ^ (w - p.nbits - n) < 2 ^ n * 2 ^ (w - p.nbits - n) :=
          Nat.mul_lt_mul_of_lt_of_le hi (Nat.le_refl _) (Nat.two_pow_pos _)
      _ = 2 ^ (w - p.nbits) := by rw [← Nat.pow_add]; rw [Nat.add_comm]; rw [hoff]
  have hlor : p.addr ||| i <<< (w - p.nbits - n) =
      p.addr + i * 2 ^ (w - p.nbits - n) := by
    rw [Nat.shiftLeft_eq]
    exact lor_eq_add (wf_dvd hp) hib
  have hrange := range_in_space hp
  have hlt : p.addr + i * 2 ^ (w - p.nbits - n) < 2 ^ w := by omega
  have hdvd : 2 ^ (w - (p.nbits + n)) ∣ p.addr + i * 2 ^ (w - p.nbits - n) := by
    rw [show w - (p.nbits + n) = w - p.nbits - n by omega]
    exact Nat.dvd_add
      (Nat.dvd_trans (Nat.pow_dvd_pow 2 (by omega)) (wf_dvd hp))
      ⟨i, by ring⟩
  rw [gset, hlor]
  have hnorm := (norm_iff_dvd (show p.nbits + n ≤ w by omega) hlt).mpr hdvd
  rw [hnorm]

/-- `Supernet` recovers the parent from the full list of its subnets (for a
parent of nonzero length split at least once). -/
theorem gsupernet_of_subnets {w : Nat} {p : Pfx} (hp : p.wf w) {n : Nat}
    (hn : p.nbits + n ≤ w) (hL : 0 < p.nbits) (hn1 : 0 < n) :
    gsupernet w ((List.range (2 ^ n)).map fun i =>
      ⟨p.nbits + n, p.addr + i * 2 ^ (w - p.nbits - n)⟩) = some p := by
  have hoff : w - p.nbits - n + n = w - p.nbits := by omega
  have hoffeq : w - (p.nbits + n) = w - p.nbits - n := by omega
  have h2n : 2 ^ n = (2 ^ n - 1) + 1 := by have := Nat.two_pow_pos n; omega
  have hib : ∀ j : Nat, j < 2 ^ n →
      j * 2 ^ (w - p.nbits - n) < 2 ^ (w - p.nbits) := by
    intro j hj
    calc j * 2 ^ (w - p.nbits - n) < 2 ^ n * 2 ^ (w - p.nbits - n) :=
        Nat.mul_lt_mul_of_lt_of_le hj (Nat.le_refl _) (Nat.two_pow_pos _)
      _ = 2 ^ (w - p.nbits) := by rw [← Nat.pow_add, Nat.add_comm, hoff]
  have hdiff : ∀ j : Nat, 0 < j → j < 2 ^ n →
      (p.addr ^^^ (p.addr + j * 2 ^ (w - p.nbits - n))) &&& gmask w (p.nbits + n)
        = j * 2 ^ (w - p.nbits - n) := by
    intro j hj0 hj
    have hb := hib j hj
    have hlor : p.addr + j * 2 ^ (w - p.nbits - n) =
        p.addr ||| j * 2 ^ (w - p.nbits - n) := (lor_eq_add (wf_dvd hp) hb).symm
    rw [hlor, xor_lor_cancel (aligned_land_zero (wf_dvd hp) hb)]
    have hrange := range_in_space hp
    apply (norm_iff_dvd (show p.nbits + n ≤ w by omega) (by omega)).mpr
    rw [hoffeq]
    exact ⟨j, by ring⟩
  have hval : ∀ j : Nat, 0 < j → j < 2 ^ n →
      gnlz w (j * 2 ^ (w - p.nbits - n)) = w - (bitlen j + (w - p.nbits - n)) := by
    intro j hj0 hj
    rw [gnlz, bitlen_mul_two_pow (by omega)]
  have hvalge : ∀ j : Nat, 0 < j → j < 2 ^ n →
      p.nbits ≤ gnlz w (j * 2 ^ (w - p.nbits - n)) := by
    intro j hj0 hj
    rw [hval j hj0 hj]
    have hbl : bitlen j ≤ n := (bitlen_le_iff j n).mpr hj
    omega
  have hshape : (List.range (2 ^ n)).map (fun i =>
        (⟨p.nbits + n, p.addr + i * 2 ^ (w - p.nbits - n)⟩ : Pfx)) =
      (⟨p.nbits + n, p.addr⟩ : Pfx) :: (List.range (2 ^ n - 1)).map (fun i =>
        ⟨p.nbits + n, p.addr + (i + 1) * 2 ^ (w - p.nbits - n)⟩) := by
    rw [h2n, List.range_succ_eq_map, List.map_cons, List.map_map]
    simp only [Nat.add_sub_cancel, Nat.zero_mul, Nat.add_zero]
    congr 1
  rw [hshape]
  have hbase : p.addr &&& gmask w (p.nbits + n) = p.addr := by
    apply (norm_iff_dvd (show p.nbits + n ≤ w by omega) hp.2.1).mpr
    rw [hoffeq]
    exact Nat.dvd_trans (Nat.pow_dvd_pow 2 (by omega)) (wf_dvd hp)
  have hred : gsupernet w ((⟨p.nbits + n, p.addr⟩ : Pfx) ::
      (List.range (2 ^ n - 1)).map (fun i =>
        ⟨p.nbits + n, p.addr + (i + 1) * 2 ^ (w - p.nbits - n)⟩)) =
      (let F := ((List.range (2 ^ n - 1)).map (fun i =>
          (⟨p.nbits + n, p.addr + (i + 1) * 2 ^ (w - p.nbits - n)⟩ : Pfx))).foldl
        (fun nb s =>
          if (((p.addr &&& gmask w (p.nbits + n)) ^^^ s.addr) &&&
              gmask w (p.nbits + n)) ≠ 0 then
            (if gnlz w (((p.addr &&& gmask w (p.nbits + n)) ^^^ s.addr) &&&
                gmask w (p.nbits + n)) < nb then
              gnlz w (((p.addr &&& gmask w (p.nbits + n)) ^^^ s.addr) &&&
                gmask w (p.nbits + n)) else nb) else nb) (p.nbits + n)
      if F = 0 then none else some (gset w p.addr F)) := rfl
  rw [hred, hbase]
  have hfold : ((List.range (2 ^ n - 1)).map (fun i =>
      (⟨p.nbits + n, p.addr + (i + 1) * 2 ^ (w - p.nbits - n)⟩ : Pfx))).foldl
      (fun nb s =>
        if ((p.addr ^^^ s.addr) &&& gmask w (p.nbits + n)) ≠ 0 then
          (if gnlz w ((p.addr ^^^ s.addr) &&& gmask w (p.nbits + n)) < nb then
            gnlz w ((p.addr ^^^ s.addr) &&& gmask w (p.nbits + n)) else nb)
        else nb) (p.nbits + n) = p.nbits := by
    apply supfold_attain
    · omega
    · intro s hs _
      obtain ⟨i, hi, rfl⟩ := List.mem_map.mp hs
      rw [List.mem_range] at hi
      dsimp only
      rw [hdiff (i + 1) (by omega) (by omega)]
      exact hvalge (i + 1) (by omega) (by omega)
    · refine ⟨⟨p.nbits + n, p.addr + 2 ^ (n - 1) * 2 ^ (w - p.nbits - n)⟩,
        ?_, ?_, ?_⟩
      · apply List.mem_map.mpr
        refine ⟨2 ^ (n - 1) - 1, List.mem_range.mpr ?_, ?_⟩
        · have h1 : (2 : Nat) ^ (n - 1) < 2 ^ n :=
            Nat.pow_lt_pow_right (by omega) (by omega)
          have h2 := Nat.two_pow_pos (n - 1)
          omega
        · have h2 := Nat.two_pow_pos (n - 1)
          rw [show 2 ^ (n - 1) - 1 + 1 = 2 ^ (n - 1) by omega]
      · dsimp only
        rw [hdiff (2 ^ (n - 1)) (Nat.two_pow_pos _)
          (Nat.pow_lt_pow_right (by omega) (by omega))]
        have := Nat.two_pow_pos (n - 1)
        have := Nat.two_pow_pos (w - p.nbits - n)
        positivity
      · dsimp only
        rw [hdiff (2 ^ (n - 1)) (Nat.two_pow_pos _)
          (Nat.pow_lt_pow_right (by omega) (by omega))]
        rw [hval (2 ^ (n - 1)) (Nat.two_pow_pos _)
          (Nat.pow_lt_pow_right (by omega) (by omega))]
        rw [bitlen_two_pow, show n - 1 + 1 = n by omega]
        omega
  rw [hfold]
  rw [if_neg (by omega)]
  rw [gset_of_wf hp]

theorem supernetIPv4_eq (l : List Pfx) : supernetIPv4 l = gsupernet 32 l := by
  cases l with
  | nil => rfl
  | cons s0 rest =>
    have h1 : supernetIPv4 (s0 :: rest) =
        (let F := rest.foldl (fun nb s =>
          if (((s0.addr &&& gmask 32 s0.nbits) ^^^ s.addr) &&&
              gmask 32 s0.nbits) ≠ 0 then
            (if nlz32 (((s0.addr &&& gmask 32 s0.nbits) ^^^ s.addr) &&&
                gmask 32 s0.nbits) < nb then
              nlz32 (((s0.addr &&& gmask 32 s0.nbits) ^^^ s.addr) &&&
                gmask 32 s0.nbits) else nb) else nb) s0.nbits
        if F = 0 then none else some (gset 32 s0.addr F)) := rfl
    have h2 : gsupernet 32 (s0 :: rest) =
        (let F := rest.foldl (fun nb s =>
          if (((s0.addr &&& gmask 32 s0.nbits) ^^^ s.addr) &&&
              gmask 32 s0.nbits) ≠ 0 then
            (if gnlz 32 (((s0.addr &&& gmask 32 s0.nbits) ^^^ s.addr) &&&
                gmask 32 s0.nbits) < nb then
              gnlz 32 (((s0.addr &&& gmask 32 s0.nbits) ^^^ s.addr) &&&
                gmask 32 s0.nbits) else nb) else nb) s0.nbits
        if F = 0 then none else some (gset 32 s0.addr F)) := rfl
    rw [h1, h2]
    have hfe : rest.foldl (fun nb s =>
          if (((s0.addr &&& gmask 32 s0.nbits) ^^^ s.addr) &&&
              gmask 32 s0.nbits) ≠ 0 then
            (if nlz32 (((s0.addr &&& gmask 32 s0.nbits) ^^^ s.addr) &&&
                gmask 32 s0.nbits) < nb then
              nlz32 (((s0.addr &&& gmask 32 s0.nbits) ^^^ s.addr) &&&
                gmask 32 s0.nbits) else nb) else nb) s0.nbits =
        rest.foldl (fun nb s =>
          if (((s0.addr &&& gmask 32 s0.nbits) ^^^ s.addr) &&&
              gmask 32 s0.nbits) ≠ 0 then
            (if gnlz 32 (((s0.addr &&& gmask 32 s0.nbits) ^^^ s.addr) &&&
                gmask 32 s0.nbits) < nb then
              gnlz 32 (((s0.addr &&& gmask 32 s0.nbits) ^^^ s.addr) &&&
                gmask 32 s0.nbits) else nb) else nb) s0.nbits := by
      apply foldl_congr_fn
      intro nb s _
      have hlt : (((s0.addr &&& gmask 32 s0.nbits) ^^^ s.addr) &&&
          gmask 32 s0.nbits) < 2 ^ 32 :=
        Nat.lt_of_le_of_lt (Nat.and_le_right) (gmask_lt 32 s0.nbits)
      have he : nlz32 (((s0.addr &&& gmask 32 s0.nbits) ^^^ s.addr) &&&
          gmask 32 s0.nbits) = gnlz 32 (((s0.addr &&& gmask 32 s0.nbits) ^^^
          s.addr) &&& gmask 32 s0.nbits) := nlz32_eq hlt
      rw [he]
    rw [hfe]

theorem ipv4OnlyP_map (l : List Pfx) : ipv4OnlyP (l.map IPPfx.v4) = l := by
  induction l with
  | nil => rfl
  | cons a l ih =>
    have hstep : ipv4OnlyP (IPPfx.v4 a :: l.map IPPfx.v4) =
        a :: ipv4OnlyP (l.map IPPfx.v4) := rfl
    rw [List.map_cons, hstep, ih]

theorem ipv6OnlyP_map (l : List Pfx) : ipv6OnlyP (l.map IPPfx.v6) = l := by
  induction l with
  | nil => rfl
  | cons a l ih =>
    have hstep : ipv6OnlyP (IPPfx.v6 a :: l.map IPPfx.v6) =
        a :: ipv6OnlyP (l.map IPPfx.v6) := rfl
    rw [List.map_cons, hstep, ih]

theorem Supernet_v4_one (s : Pfx) : Supernet [IPPfx.v4 s] = some (.v4 s) := rfl

theorem Supernet_v6_one (s : Pfx) : Supernet [IPPfx.v6 s] = some (.v6 s) := rfl

theorem Supernet_v4_two (a b : Pfx) (rest : List Pfx) :
    Supernet (IPPfx.v4 a :: .v4 b :: rest.map .v4) =
      (supernetIPv4 (a :: b :: rest)).map IPPfx.v4 := by
  have honly : ipv4OnlyP (IPPfx.v4 a :: .v4 b :: rest.map .v4) =
      a :: b :: rest := by
    have h1 : (IPPfx.v4 a :: IPPfx.v4 b :: rest.map IPPfx.v4) =
        (a :: b :: rest).map IPPfx.v4 := by
      rw [List.map_cons, List.map_cons]
    rw [h1, ipv4OnlyP_map]
  show (match ipv4OnlyP (IPPfx.v4 a :: .v4 b :: rest.map .v4) with
    | [] => none
    | [s] => some (IPPfx.v4 s)
    | s0 :: s1 :: r => (supernetIPv4 (s0 :: s1 :: r)).map IPPfx.v4) =
    (supernetIPv4 (a :: b :: rest)).map IPPfx.v4
  rw [honly]

theorem Supernet_v6_two (a b : Pfx) (rest : List Pfx) :
    Supernet (IPPfx.v6 a :: .v6 b :: rest.map .v6) =
      (gsupernet 128 (a :: b :: rest)).map IPPfx.v6 := by
  have honly : ipv6OnlyP (IPPfx.v6 a :: .v6 b :: rest.map .v6) =
      a :: b :: rest := by
    have h1 : (IPPfx.v6 a :: IPPfx.v6 b :: rest.map IPPfx.v6) =
        (a :: b :: rest).map IPPfx.v6 := by
      rw [List.map_cons, List.map_cons]
    rw [h1, ipv6OnlyP_map]
  show (match ipv6OnlyP (IPPfx.v6 a :: .v6 b :: rest.map .v6) with
    | [] => none
    | [s] => some (IPPfx.v6 s)
    | s0 :: s1 :: r => (gsupernet 128 (s0 :: s1 :: r)).map IPPfx.v6) =
    (gsupernet 128 (a :: b :: rest)).map IPPfx.v6
  rw [honly]

theorem subnets_core {w : Nat} {p : Pfx} (hp : p.wf w) {n : Nat}
    (hn : n ≤ w - p.nbits) :
    ∃ l, gsubnets w p n = some l ∧ l.length = 2 ^ n ∧
      (∀ q ∈ l, q.nbits = p.nbits + n) ∧
      (n = 0 → l = [p]) ∧
      (0 < n → 0 < p.nbits → gsupernet w l = some p ∧ 2 ≤ l.length) := by
  have hnw : p.nbits + n ≤ w := by have := hp.1; omega
  refine ⟨_, gsubnets_spec hp hnw, ?_, ?_, ?_, ?_⟩
  · rw [List.length_map, List.length_range]
  · intro q hq
    obtain ⟨i, _, rfl⟩ := List.mem_map.mp hq
    rfl
  · intro h0
    subst h0
    rw [show (2 : Nat) ^ 0 = 1 from rfl,
      show List.range 1 = [0] from rfl, List.map_cons, List.map_nil]
    simp only [Nat.zero_mul, Nat.add_zero]
  · intro hn1 hL
    refine ⟨gsupernet_of_subnets hp hnw hL hn1, ?_⟩
    rw [List.length_map, List.length_range]
    have h2 : (2 : Nat) ^ 1 ≤ 2 ^ n := two_pow_le_two_pow (by omega)
    omega

/-- C2: For every prefix `p` and every `n` with `0 ≤ n ≤ width − p.Len()`,
`subs = p.Subnets(n)` has exactly `2^n` elements and every element has
prefix length `p.Len() + n`; and — amended — provided `0 < p.Len()` or
`n = 0`, `Supernet(subs)` equals `p`.  (The original claim asserts
`Supernet(subs) == p` unconditionally, which fails for `p` of length 0
with `n ≥ 1`: the leading-zero count of the masked difference between the
two halves of `0.0.0.0/0` is 0, so `supernetIPv4` returns `nil`; see
`C2_counterexample`.) -/
theorem C2_subnets_supernet_amended (P : IPPfx) (n : Nat) (hP : P.wfP)
    (hn : n ≤ P.width - P.lenP) (hpos : 0 < P.lenP ∨ n = 0) :
    ∃ subs, Subnets P n = some subs ∧ subs.length = 2 ^ n ∧
      (∀ q ∈ subs, q.lenP = P.lenP + n) ∧ Supernet subs = some P := by
  cases P with
  | v4 p =>
    dsimp only [IPPfx.wfP, IPPfx.width, IPPfx.pfx, IPPfx.lenP]
      at hP hn hpos ⊢
    obtain ⟨l, hleq, hllen, hlbits, hl0, hl2⟩ :=
      subnets_core (w := 32) hP hn
    refine ⟨l.map .v4, ?_, ?_, ?_, ?_⟩
    · show (gsubnets 32 p n).map (List.map IPPfx.v4) = _
      rw [hleq]
      rfl
    · rw [List.length_map]
      exact hllen
    · intro q hq
      obtain ⟨r, hr, rfl⟩ := List.mem_map.mp hq
      show r.nbits = p.nbits + n
      exact hlbits r hr
    · rcases Nat.eq_zero_or_pos n with hn0 | hn1
      · subst hn0
        rw [hl0 rfl, List.map_cons, List.map_nil]
        exact Supernet_v4_one p
      · have hL : 0 < p.nbits := by
          rcases hpos with h | h
          · exact h
          · omega
        obtain ⟨hsup, hlen2⟩ := hl2 hn1 hL
        match l, hlen2, hsup with
        | a :: b :: rest, _, hsup =>
          rw [List.map_cons, List.map_cons, Supernet_v4_two,
            supernetIPv4_eq, hsup]
          rfl
  | v6 p =>
    dsimp only [IPPfx.wfP, IPPfx.width, IPPfx.pfx, IPPfx.lenP]
      at hP hn hpos ⊢
    obtain ⟨l, hleq, hllen, hlbits, hl0, hl2⟩ :=
      subnets_core (w := 128) hP hn
    refine ⟨l.map .v6, ?_, ?_, ?_, ?_⟩
    · show (gsubnets 128 p n).map (List.map IPPfx.v6) = _
      rw [hleq]
      rfl
    · rw [List.length_map]
      exact hllen
    · intro q hq
      obtain ⟨r, hr, rfl⟩ := List.mem_map.mp hq
      show r.nbits = p.nbits + n
      exact hlbits r hr
    · rcases Nat.eq_zero_or_pos n with hn0 | hn1
      · subst hn0
        rw [hl0 rfl, List.map_cons, List.map_nil]
        exact Supernet_v6_one p
      · have hL : 0 < p.nbits := by
          rcases hpos with h | h
          · exact h
          · omega
        obtain ⟨hsup, hlen2⟩ := hl2 hn1 hL
        match l, hlen2, hsup with
        | a :: b :: rest, _, hsup =>
          rw [List.map_cons, List.map_cons, Supernet_v6_two, hsup]
          rfl

/-- C2: counterexample to the unconditional claim.  `p = 0.0.0.0/0`,
`n = 1` satisfies every hypothesis of the claim (`p` well-formed and
`n ≤ 32 − p.Len()`); `Subnets` yields `[0.0.0.0/1, 128.0.0.0/1]`, but
`Supernet` of that list is `nil`, not `p`: `supernetIPv4` starts the
candidate length at `subs[0].Len() = 1`, the masked difference of the two
halves is `0x80000000` with `nlz32 = 0 < 1`, so the fold shrinks the
length to 0 and the final `if nbits = 0` returns `nil`. -/
theorem C2_counterexample :
    (IPPfx.v4 ⟨0, 0⟩).wfP ∧
    1 ≤ (IPPfx.v4 ⟨0, 0⟩).width - (IPPfx.v4 ⟨0, 0⟩).lenP ∧
    Subnets (.v4 ⟨0, 0⟩) 1 =
      some [.v4 ⟨1, 0⟩, .v4 ⟨1, 0x80000000⟩] ∧
    Supernet [.v4 ⟨1, 0⟩, .v4 ⟨1, 0x80000000⟩] = none := by
  decide

theorem C2_subnets_supernet_amended_witness :
    (IPPfx.v4 ⟨16, 0xAC100000⟩).wfP ∧
    3 ≤ (IPPfx.v4 ⟨16, 0xAC100000⟩).width -
      (IPPfx.v4 ⟨16, 0xAC100000⟩).lenP ∧
    ∃ subs, Subnets (.v4 ⟨16, 0xAC100000⟩) 3 = some subs ∧
      subs.length = 2 ^ 3 ∧
      (∀ q ∈ subs, q.lenP = (IPPfx.v4 ⟨16, 0xAC100000⟩).lenP + 3) ∧
      Supernet subs = some (.v4 ⟨16, 0xAC100000⟩) :=
  ⟨by decide, by decide,
    C2_subnets_supernet_amended (.v4 ⟨16, 0xAC100000⟩) 3 (by decide)
      (by decide) (Or.inl (by decide))⟩

theorem gsumPickAux_spec {w first last : Nat} :
    ∀ fuel nbits, nbits ≤ w →
      first &&& gmask w nbits = first →
      first ||| ghostmask w nbits ≤ last →
      gsumPickAux w first last fuel nbits ≤ w ∧
      first &&& gmask w (gsumPickAux w first last fuel nbits) = first ∧
      first ||| ghostmask w (gsumPickAux w first last fuel nbits) ≤ last := by
  intro fuel
  induction fuel with
  | zero =>
    intro nbits h1 h2 h3
    simp only [gsumPickAux]
    exact ⟨h1, h2, h3⟩
  | succ fuel ih =>
    intro nbits h1 h2 h3
    by_cases hc : 0 < nbits ∧ first = first &&& gmask w (nbits - 1) ∧
        first ||| ghostmask w (nbits - 1) ≤ last
    · have heq : gsumPickAux w first last (fuel + 1) nbits =
          gsumPickAux w first last fuel (nbits - 1) := by
        simp only [gsumPickAux]
        rw [if_pos hc]
      rw [heq]
      exact ih (nbits - 1) (by omega) hc.2.1.symm hc.2.2
    · have heq : gsumPickAux w first last (fuel + 1) nbits = nbits := by
        simp only [gsumPickAux]
        rw [if_neg hc]
      rw [heq]
      exact ⟨h1, h2, h3⟩

theorem gsumPick_spec {w first last : Nat} (hf : first < 2 ^ w)
    (hfl : first ≤ last) :
    gsumPick w first last ≤ w ∧
    first &&& gmask w (gsumPick w first last) = first ∧
    first ||| ghostmask w (gsumPick w first last) ≤ last := by
  have hm : gmask w w = 2 ^ w - 1 := by
    rw [gmask_of_le (Nat.le_refl w), Nat.sub_self, Nat.pow_zero]
  have hgm : ghostmask w w = 0 := by
    rw [ghostmask, hm, Nat.xor_self]
  refine gsumPickAux_spec w w (Nat.le_refl w) ?_ ?_
  · rw [hm, Nat.and_pow_two_sub_one_eq_mod]
    exact Nat.mod_eq_of_lt hf
  · rw [hgm]
    simpa using hfl

theorem gsummarizeLoop_spec {w last : Nat} (hl : last < 2 ^ w) :
    ∀ fuel first, first < 2 ^ w → last + 1 - first ≤ fuel →
      (last = 2 ^ w - 1 ∨ last + 2 - first ≤ fuel) → 0 < fuel →
      ∃ L, gsummarizeLoop w fuel first last = some L ∧
        (∀ q ∈ L, q.wf w) ∧
        List.Pairwise (DisjP w) L ∧
        (∀ i, (∃ q ∈ L, memP w q i) ↔ first ≤ i ∧ i ≤ last) ∧
        (L.map (gnumaddr w)).sum = last + 1 - first := by
  intro fuel
  induction fuel with
  | zero =>
    intro first _ _ _ h4
    exact absurd h4 (Nat.lt_irrefl 0)
  | succ fuel ih =>
    intro first hf hb hd _
    by_cases hfl : first ≤ last
    · obtain ⟨hr, halign, hcover⟩ := gsumPick_spec hf hfl
      have hpeq : gset w first (gsumPick w first last) =
          ⟨gsumPick w first last, first⟩ := by
        unfold gset
        rw [halign]
      have hwf : Pfx.wf w ⟨gsumPick w first last, first⟩ := ⟨hr, hf, halign⟩
      have hglv : glast w (⟨gsumPick w first last, first⟩ : Pfx) =
          first + (2 ^ (w - gsumPick w first last) - 1) := glast_eq hwf
      have hcov2 : glast w (⟨gsumPick w first last, first⟩ : Pfx) ≤ last :=
        hcover
      have hgl_le : first + (2 ^ (w - gsumPick w first last) - 1) ≤ last := by
        rw [← hglv]
        exact hcov2
      have hpos2 : 0 < 2 ^ (w - gsumPick w first last) := Nat.two_pow_pos _
      have hloop : gsummarizeLoop w (fuel + 1) first last =
          (if glast w (gset w first (gsumPick w first last)) = 2 ^ w - 1 then
            some [gset w first (gsumPick w first last)]
          else
            (gsummarizeLoop w fuel
              (glast w (gset w first (gsumPick w first last)) + 1) last).map
              (gset w first (gsumPick w first last) :: ·)) := by
        simp only [gsummarizeLoop]
        rw [if_pos hfl]
      rw [hloop, hpeq]
      by_cases hend : glast w (⟨gsumPick w first last, first⟩ : Pfx) =
          2 ^ w - 1
      · rw [if_pos hend]
        rw [hglv] at hend
        have hlast_eq : first + (2 ^ (w - gsumPick w first last) - 1) =
            last := by omega
        refine ⟨[⟨gsumPick w first last, first⟩], rfl, ?_, ?_, ?_, ?_⟩
        · intro q hq
          rw [List.mem_singleton] at hq
          rw [hq]
          exact hwf
        · exact List.pairwise_singleton _ _
        · intro i
          simp only [List.mem_singleton, exists_eq_left]
          rw [memP_iff hwf]
          dsimp only
          omega
        · simp only [List.map_cons, List.map_nil, List.sum_cons,
            List.sum_nil]
          rw [gnumaddr_eq hr]
          dsimp only
          omega
      · rw [if_neg hend]
        rw [hglv] at hend
        rw [hglv]
        have hf' : first + (2 ^ (w - gsumPick w first last) - 1) + 1 <
            2 ^ w := by omega
        have hb' : last + 1 -
            (first + (2 ^ (w - gsumPick w first last) - 1) + 1) ≤ fuel := by
          omega
        have hd' : last = 2 ^ w - 1 ∨ last + 2 -
            (first + (2 ^ (w - gsumPick w first last) - 1) + 1) ≤ fuel := by
          rcases hd with h | h
          · exact Or.inl h
          · right
            omega
        have hfuel0 : 0 < fuel := by
          rcases hd with h | h
          · omega
          · omega
        obtain ⟨L', hL'eq, hL'wf, hL'pw, hL'mem, hL'sum⟩ :=
          ih (first + (2 ^ (w - gsumPick w first last) - 1) + 1) hf' hb'
            hd' hfuel0
        rw [hL'eq]
        refine ⟨_, rfl, ?_, ?_, ?_, ?_⟩
        · intro q hq
          rw [List.mem_cons] at hq
          rcases hq with h | h
          · rw [h]
            exact hwf
          · exact hL'wf q h
        · rw [List.pairwise_cons]
          refine ⟨?_, hL'pw⟩
          intro q hq i hi
          obtain ⟨hip, hiq⟩ := hi
          have h1 := (memP_iff hwf).mp hip
          dsimp only at h1
          have h2 := (hL'mem i).mp ⟨q, hq, hiq⟩
          omega
        · intro i
          constructor
          · rintro ⟨q, hq, hiq⟩
            rw [List.mem_cons] at hq
            rcases hq with h | h
            · rw [h] at hiq
              have hm := (memP_iff hwf).mp hiq
              dsimp only at hm
              omega
            · have := (hL'mem i).mp ⟨q, h, hiq⟩
              omega
          · intro hi
            obtain ⟨h1, h2⟩ := hi
            by_cases hsplit : i < first + 2 ^ (w - gsumPick w first last)
            · refine ⟨_, List.mem_cons_self _ _,
                (memP_iff hwf).mpr ?_⟩
              dsimp only
              omega
            · obtain ⟨q, hq, hiq⟩ := (hL'mem i).mpr ⟨by omega, h2⟩
              exact ⟨q, List.mem_cons_of_mem _ hq, hiq⟩
        · simp only [List.map_cons, List.sum_cons, hL'sum]
          rw [gnumaddr_eq hr]
          dsimp only
          omega
    · have hnil : gsummarizeLoop w (fuel + 1) first last = some [] := by
        simp only [gsummarizeLoop]
        rw [if_neg hfl]
      refine ⟨[], hnil, ?_, List.Pairwise.nil, ?_, ?_⟩
      · intro q hq
        exact absurd hq (List.not_mem_nil q)
      · intro i
        constructor
        · rintro ⟨q, hq, _⟩
          exact absurd hq (List.not_mem_nil q)
        · intro hi
          omega
      · simp only [List.map_nil, List.sum_nil]
        omega

/-- C3: for every same-family address pair `(first, last)` with
`first ≤ last`, `Summarize(first, last)` returns prefixes that cover
exactly the inclusive range `[first, last]` — every address of the range
belongs to some returned prefix and to nothing outside it, the prefixes
are pairwise disjoint — and the sum of `NumAddr` over the result equals
`last − first + 1`.  Stated for a pair of 4-byte addresses and for a pair
of 16-byte addresses that are not IPv4-mapped (the two dispatch cases of
`Summarize` that reach a summarizer). -/
theorem C3_summarize :
    (∀ a b : Nat, b < 2 ^ 32 → a ≤ b →
      ∃ L, SummarizeM (.v4 a) (.v4 b) = some (L.map IPPfx.v4) ∧
        (∀ q ∈ L, q.wf 32) ∧
        List.Pairwise (DisjP 32) L ∧
        (∀ i, (∃ q ∈ L, memP 32 q i) ↔ a ≤ i ∧ i ≤ b) ∧
        (L.map (gnumaddr 32)).sum = b - a + 1) ∧
    (∀ a b : Nat, b < 2 ^ 128 → a ≤ b → (IPAddr.v6 a).to4? = none →
      (IPAddr.v6 b).to4? = none →
      ∃ L, SummarizeM (.v6 a) (.v6 b) = some (L.map IPPfx.v6) ∧
        (∀ q ∈ L, q.wf 128) ∧
        List.Pairwise (DisjP 128) L ∧
        (∀ i, (∃ q ∈ L, memP 128 q i) ↔ a ≤ i ∧ i ≤ b) ∧
        (L.map (gnumaddr 128)).sum = b - a + 1) := by
  constructor
  · intro a b hb hab
    have hl : b < 2 ^ 32 := hb
    obtain ⟨L, hLeq, hLwf, hLpw, hLmem, hLsum⟩ :=
      gsummarizeLoop_spec hl (2 ^ 32) a (by omega) (by omega) (by omega)
        (by omega)
    refine ⟨L, ?_, hLwf, hLpw, hLmem, by omega⟩
    show (gsummarize 32 a b).map (List.map IPPfx.v4) = some (L.map IPPfx.v4)
    rw [gsummarize, hLeq]
    rfl
  · intro a b hb hab ha4 hb4
    obtain ⟨L, hLeq, hLwf, hLpw, hLmem, hLsum⟩ :=
      gsummarizeLoop_spec hb (2 ^ 128) a (by omega) (by omega) (by omega)
        (by omega)
    refine ⟨L, ?_, hLwf, hLpw, hLmem, by omega⟩
    show SummarizeM (.v6 a) (.v6 b) = some (L.map IPPfx.v6)
    rw [SummarizeM]
    rw [ha4, hb4]
    show (gsummarize 128 a b).map (List.map IPPfx.v6) = some (L.map IPPfx.v6)
    rw [gsummarize, hLeq]
    rfl

theorem C3_summarize_witness :
    (0x0A0000FF : Nat) < 2 ^ 32 ∧ (0x0A000000 : Nat) ≤ 0x0A0000FF ∧
    ∃ L, SummarizeM (.v4 0x0A000000) (.v4 0x0A0000FF) =
        some (L.map IPPfx.v4) ∧
      (∀ q ∈ L, q.wf 32) ∧
      List.Pairwise (DisjP 32) L ∧
      (∀ i, (∃ q ∈ L, memP 32 q i) ↔ 0x0A000000 ≤ i ∧ i ≤ 0x0A0000FF) ∧
      (L.map (gnumaddr 32)).sum = 0x0A0000FF - 0x0A000000 + 1 :=
  ⟨by decide, by decide,
    C3_summarize.1 0x0A000000 0x0A0000FF (by decide) (by decide)⟩

theorem glast_lt {p : Pfx} (hp : p.wf 32) : glast 32 p < 2 ^ 32 := by
  have h1 := glast_eq hp
  have h2 := range_in_space hp
  have h3 := Nat.two_pow_pos (32 - p.nbits)
  omega

theorem isHostAssignable_last {p : Pfx} (_hp : p.wf 32) (hn : 0 < p.nbits) :
    isHostAssignable p (glast 32 p) = (false, true) := by
  have hb : isBroadcastAddr p (glast 32 p) = true := by
    rw [isBroadcastAddr, beq_iff_eq]
    rfl
  have hdr : isDefaultRoute p = false := by
    rw [isDefaultRoute]
    have h0 : (p.nbits == 0) = false := by
      rw [beq_eq_false_iff_ne]
      omega
    rw [h0, Bool.and_false]
  rw [isHostAssignable]
  by_cases hlim : isLimitedBroadcastAddr (glast 32 p) = true
  · rw [if_pos hlim, if_neg (by rw [hdr]; exact Bool.false_ne_true)]
  · rw [if_neg hlim, if_pos hb]

theorem isHostAssignable_mid {p : Pfx} (hp : p.wf 32) {i : Nat}
    (hi1 : p.addr < i) (hi2 : i < glast 32 p) :
    isHostAssignable p i = (true, false) := by
  have hgl := glast_eq hp
  have hglt := glast_lt hp
  have hn32 : p.nbits ≠ 32 := by
    intro h
    rw [h] at hgl
    norm_num at hgl
    omega
  have hlim : isLimitedBroadcastAddr i = false := by
    rw [isLimitedBroadcastAddr, beq_eq_false_iff_ne]
    omega
  have hb : isBroadcastAddr p i = false := by
    rw [isBroadcastAddr, beq_eq_false_iff_ne]
    show glast 32 p ≠ i
    omega
  have hnet : isNetworkAddr p i = false := by
    rw [isNetworkAddr]
    have h32 : (p.nbits == 32) = false := by
      rw [beq_eq_false_iff_ne]
      exact hn32
    rw [h32]
    simp only [Bool.false_eq_true, if_false]
    rw [beq_eq_false_iff_ne]
    omega
  rw [isHostAssignable, if_neg (by rw [hlim]; exact Bool.false_ne_true),
    if_neg (by rw [hb]; exact Bool.false_ne_true),
    if_neg (by rw [hnet]; exact Bool.false_ne_true)]

theorem isHostAssignable_net {p : Pfx} (hp : p.wf 32) (hn : 0 < p.nbits)
    (hn32 : p.nbits < 32) :
    isHostAssignable p p.addr = (false, false) := by
  have hgl := glast_eq hp
  have hglt := glast_lt hp
  have hwide : 2 ≤ 2 ^ (32 - p.nbits) := by
    have : (2 : Nat) ^ 1 ≤ 2 ^ (32 - p.nbits) := two_pow_le_two_pow (by omega)
    omega
  have hlim : isLimitedBroadcastAddr p.addr = false := by
    rw [isLimitedBroadcastAddr, beq_eq_false_iff_ne]
    omega
  have hb : isBroadcastAddr p p.addr = false := by
    rw [isBroadcastAddr, beq_eq_false_iff_ne]
    show glast 32 p ≠ p.addr
    omega
  have hnet : isNetworkAddr p p.addr = true := by
    rw [isNetworkAddr]
    have h32 : (p.nbits == 32) = false := by
      rw [beq_eq_false_iff_ne]
      omega
    rw [h32]
    simp only [Bool.false_eq_true, if_false]
    exact beq_self_eq_true p.addr
  rw [isHostAssignable, if_neg (by rw [hlim]; exact Bool.false_ne_true),
    if_neg (by rw [hb]; exact Bool.false_ne_true), if_pos hnet]

theorem isHostAssignable_eor_false {p : Pfx} (hp : p.wf 32)
    (hn : 0 < p.nbits) {i : Nat} (h1 : p.addr ≤ i) (h2 : i < glast 32 p) :
    (isHostAssignable p i).2 = false := by
  rcases Nat.eq_or_lt_of_le h1 with h | h
  · have hn32 : p.nbits < 32 := by
      have hgl := glast_eq hp
      have h32 := hp.1
      rcases Nat.lt_or_ge p.nbits 32 with h' | h'
      · exact h'
      · have : p.nbits = 32 := by omega
        rw [this] at hgl
        norm_num at hgl
        omega
    rw [← h, isHostAssignable_net hp hn hn32]
  · rw [isHostAssignable_mid hp h h2]

theorem ipv4HostsLoop_run {p : Pfx} (hp : p.wf 32) (hn : 0 < p.nbits) :
    ∀ fuel cur, p.addr ≤ cur → cur ≤ glast 32 p → glast 32 p - cur < fuel →
      ipv4HostsLoop p fuel cur =
        some (List.range' (cur + 1) (glast 32 p - cur - 1)) := by
  have hl32 : glast 32 p = p.addr + (2 ^ (32 - p.nbits) - 1) := glast_eq hp
  have hglt : glast 32 p < 2 ^ 32 := glast_lt hp
  have hp2 : 0 < 2 ^ (32 - p.nbits) := Nat.two_pow_pos _
  intro fuel
  induction fuel with
  | zero =>
    intro cur h1 h2 h3
    omega
  | succ fuel ih =>
    intro cur h1 h2 h3
    have hcur_lt : cur < 2 ^ 32 := by omega
    have hcont : gcontains 32 p cur = true := by
      rw [gcontains_iff hp hcur_lt]
      omega
    by_cases hend : cur = glast 32 p
    · have heor : isHostAssignable p cur = (false, true) := by
        rw [hend]
        exact isHostAssignable_last hp hn
      have h0 : glast 32 p - cur - 1 = 0 := by omega
      rw [h0]
      simp only [ipv4HostsLoop]
      rw [if_pos hcont, if_pos (by rw [heor])]
      rfl
    · have heor : (isHostAssignable p cur).2 = false :=
        isHostAssignable_eor_false hp hn h1 (by omega)
      have hmod : (cur + 1) % 2 ^ 32 = cur + 1 :=
        Nat.mod_eq_of_lt (by omega)
      have hrec := ih (cur + 1) (by omega) (by omega) (by omega)
      have hstep : ipv4HostsLoop p (fuel + 1) cur =
          (ipv4HostsLoop p fuel (cur + 1)).map fun rest =>
            if (isHostAssignable p (cur + 1)).1 = true then (cur + 1) :: rest
            else rest := by
        simp only [ipv4HostsLoop]
        rw [if_pos hcont, if_neg (by rw [heor]; exact Bool.false_ne_true),
          hmod]
      rw [hstep, hrec, Option.map_some']
      congr 1
      show (if (isHostAssignable p (cur + 1)).1 = true then
          (cur + 1) :: List.range' (cur + 1 + 1) (glast 32 p - (cur + 1) - 1)
        else List.range' (cur + 1 + 1) (glast 32 p - (cur + 1) - 1)) =
        List.range' (cur + 1) (glast 32 p - cur - 1)
      by_cases hnext : cur + 1 = glast 32 p
      · have hok : (isHostAssignable p (cur + 1)).1 = false := by
          rw [hnext, isHostAssignable_last hp hn]
        rw [if_neg (by rw [hok]; exact Bool.false_ne_true)]
        rw [show glast 32 p - (cur + 1) - 1 = 0 from by omega,
          show glast 32 p - cur - 1 = 0 from by omega]
        rfl
      · have hok : (isHostAssignable p (cur + 1)).1 = true := by
          rw [isHostAssignable_mid hp (by omega) (by omega)]
        rw [if_pos hok,
          show glast 32 p - cur - 1 = (glast 32 p - (cur + 1) - 1) + 1 from
            by omega]
        rfl

theorem ipv4Hosts_hosts {p : Pfx} (hp : p.wf 32) (hn : 0 < p.nbits)
    (hn32 : p.nbits < 32) :
    ipv4Hosts p none =
      some (List.range' (p.addr + 1) (glast 32 p - p.addr - 1)) := by
  have hl32 : glast 32 p = p.addr + (2 ^ (32 - p.nbits) - 1) := glast_eq hp
  have hglt : glast 32 p < 2 ^ 32 := glast_lt hp
  have hp2 : 0 < 2 ^ (32 - p.nbits) := Nat.two_pow_pos _
  have hdef : isDefaultRoute p = false := by
    rw [isDefaultRoute,
      show (p.nbits == 0) = false from by rw [beq_eq_false_iff_ne]; omega,
      Bool.and_false]
  rw [ipv4Hosts, if_neg (by rw [hdef]; exact Bool.false_ne_true)]
  have hloop := ipv4HostsLoop_run hp hn (2 ^ 32) p.addr (Nat.le_refl _)
    (by omega) (by omega)
  show (ipv4HostsLoop p (2 ^ 32) p.addr).map _ = _
  rw [hloop, Option.map_some']
  congr 1
  show (if ((isHostAssignable p p.addr).1 && gcontains 32 p p.addr) = true
      then [p.addr] else []) ++
      List.range' (p.addr + 1) (glast 32 p - p.addr - 1) =
    List.range' (p.addr + 1) (glast 32 p - p.addr - 1)
  rw [isHostAssignable_net hp hn hn32]
  have hfa : (((false, false) : Bool × Bool).1 && gcontains 32 p p.addr) =
      false := Bool.false_and _
  rw [if_neg (by rw [hfa]; exact Bool.false_ne_true), List.nil_append]

theorem ipv4Hosts_len32 {p : Pfx} (hp : p.wf 32) (hn : p.nbits = 32) :
    ipv4Hosts p none = some [] := by
  have hglast : glast 32 p = p.addr := by
    rw [glast_eq hp, hn]
    norm_num
  have hdef : isDefaultRoute p = false := by
    rw [isDefaultRoute,
      show (p.nbits == 0) = false from by rw [beq_eq_false_iff_ne]; omega,
      Bool.and_false]
  have hassign := isHostAssignable_last hp (by omega)
  rw [hglast] at hassign
  have hcont : gcontains 32 p p.addr = true := by
    rw [gcontains_iff hp hp.2.1]
    have := Nat.two_pow_pos (32 - p.nbits)
    omega
  have hstep : ∀ fuel : Nat, ipv4HostsLoop p (fuel + 1) p.addr = some [] := by
    intro fuel
    simp only [ipv4HostsLoop]
    rw [if_pos hcont, if_pos (by rw [hassign])]
  have hloop : ipv4HostsLoop p (2 ^ 32) p.addr = some [] := by
    rw [show (2 : Nat) ^ 32 = 4294967295 + 1 from by norm_num]
    exact hstep 4294967295
  rw [ipv4Hosts, if_neg (by rw [hdef]; exact Bool.false_ne_true)]
  show (ipv4HostsLoop p (2 ^ 32) p.addr).map _ = _
  rw [hloop, Option.map_some']
  congr 1
  show (if ((isHostAssignable p p.addr).1 && gcontains 32 p p.addr) = true
      then [p.addr] else []) ++ [] = []
  rw [hassign]
  have hfa : (((false, true) : Bool × Bool).1 && gcontains 32 p p.addr) =
      false := Bool.false_and _
  rw [if_neg (by rw [hfa]; exact Bool.false_ne_true), List.nil_append]

/-- C7: the first half of the claim holds — for every well-formed IPv4
prefix `p` with `0 < p.Len() < 32`, `Hosts(nil)` returns exactly the
addresses strictly between `p.Addr()` and `p.LastAddr()` in ascending
order.  The second half is a code bug: for a `/32` the code returns the
empty list, not the single address.  `isBroadcastAddr` (`ipv4.go` line 44)
has no `nbits == 32` guard, so for a `/32` the lone address
`p.addr | ^mask32(32) == p.addr` counts as the directed broadcast:
`isHostAssignable` returns `(ok, endOfRange) = (false, true)`, the initial
append is skipped and the loop breaks at once — contradicting the spec
(a `width`-length prefix's single address is assignable) and the exported
`BroadcastAddr` (`ipv4.go` line 146), which does carry the guard and
returns nil for a `/32`. -/
theorem C7_hosts_code_bug :
    (∀ p : Pfx, p.wf 32 → 0 < p.nbits → p.nbits < 32 →
      ipv4Hosts p none =
        some (List.range' (p.addr + 1) (glast 32 p - p.addr - 1))) ∧
    (∀ p : Pfx, p.wf 32 → p.nbits = 32 → ipv4Hosts p none = some []) :=
  ⟨fun _ hp h1 h2 => ipv4Hosts_hosts hp h1 h2,
   fun _ hp h => ipv4Hosts_len32 hp h⟩

theorem C7_hosts_code_bug_witness :
    ((⟨24, 0x0A000000⟩ : Pfx).wf 32 ∧ 0 < (⟨24, 0x0A000000⟩ : Pfx).nbits ∧
      (⟨24, 0x0A000000⟩ : Pfx).nbits < 32 ∧
      ipv4Hosts ⟨24, 0x0A000000⟩ none =
        some (List.range' ((⟨24, 0x0A000000⟩ : Pfx).addr + 1)
          (glast 32 ⟨24, 0x0A000000⟩ - (⟨24, 0x0A000000⟩ : Pfx).addr - 1))) ∧
    ((⟨32, 0x0A000001⟩ : Pfx).wf 32 ∧ (⟨32, 0x0A000001⟩ : Pfx).nbits = 32 ∧
      ipv4Hosts ⟨32, 0x0A000001⟩ none = some []) :=
  ⟨⟨by decide, by decide, by decide,
     C7_hosts_code_bug.1 ⟨24, 0x0A000000⟩ (by decide) (by decide)
       (by decide)⟩,
   ⟨by decide, by decide,
     C7_hosts_code_bug.2 ⟨32, 0x0A000001⟩ (by decide) (by decide)⟩⟩

theorem decodeNLRIAux_or (rest : List Nat) :
    ∀ addr n, decodeNLRIAux addr rest n = addr ||| decodeNLRIAux 0 rest n := by
  induction rest with
  | nil =>
    intro addr n
    simp only [decodeNLRIAux]
    rw [Nat.or_zero]
  | cons byt rest ih =>
    intro addr n
    simp only [decodeNLRIAux]
    rw [ih (addr ||| _) (n + 1), ih (0 ||| _) (n + 1), Nat.zero_or,
      Nat.or_assoc]

/-- C8 (amended): after every successful `UnmarshalText` the stored prefix
satisfies I1 — the `Set` it calls masks the address against
`netmask(nbits)`.  `UnmarshalBinary` performs no normalization at all: the
stored prefix keeps the raw first byte as its length and ORs the payload
into the *previous* address, so after it I1 holds only when the previous
address was zero and the payload carried no bits below the prefix length
(see `C8_counterexample` for both failure modes). -/
theorem C8_unmarshal_amended :
    (∀ (ip : IPAddr) (nbits : Nat) (q : Pfx),
      SetIPv4 ip nbits = some q → q.wf 32) ∧
    (∀ (p : Pfx) (b0 : Nat) (rest : List Nat) (q : Pfx),
      decodeNLRI p (b0 :: rest) = some q →
      q.nbits = b0 ∧ q.addr = p.addr ||| decodeNLRIAux 0 rest 0) ∧
    (∀ (b0 : Nat) (rest : List Nat) (q : Pfx), b0 ≤ 32 →
      decodeNLRIAux 0 rest 0 &&& gmask 32 b0 = decodeNLRIAux 0 rest 0 →
      decodeNLRIAux 0 rest 0 < 2 ^ 32 →
      decodeNLRI ⟨0, 0⟩ (b0 :: rest) = some q → q.wf 32) := by
  refine ⟨?_, ?_, ?_⟩
  · intro ip nbits q h
    rw [SetIPv4] at h
    cases hip : ip.to4? with
    | none =>
      rw [hip] at h
      exact Option.noConfusion h
    | some i =>
      rw [hip] at h
      dsimp only at h
      by_cases hn : nbits ≤ 32
      · rw [if_pos hn] at h
        have hq : gset 32 i nbits = q := Option.some.inj h
        rw [← hq]
        exact gset_wf i hn
      · rw [if_neg hn] at h
        exact Option.noConfusion h
  · intro p b0 rest q h
    have hq : (⟨b0, decodeNLRIAux p.addr rest 0⟩ : Pfx) = q :=
      Option.some.inj h
    rw [← hq]
    exact ⟨rfl, decodeNLRIAux_or rest p.addr 0⟩
  · intro b0 rest q hb0 hmask hlt h
    have hq : (⟨b0, decodeNLRIAux 0 rest 0⟩ : Pfx) = q := Option.some.inj h
    rw [← hq]
    exact ⟨hb0, hlt, hmask⟩

/-- C8 counterexample: two violations of the claim.  A zero receiver
decoding `[8, 0x12, 0x34]` (one stray payload byte below the `/8` length)
stores `18.52.0.0/8` with `addr & netmask(8) = 0x12000000 ≠ 0x12340000`.
A receiver that previously held the well-formed `0.0.255.0/24` decoding
`[16, 0x0A, 0x00]` (the exact NLRI of `10.0.0.0/16`) stores
`⟨16, 0x0A00FF00⟩`, the old bits surviving below the new length. -/
theorem C8_counterexample :
    decodeNLRI ⟨0, 0⟩ [8, 0x12, 0x34] = some ⟨8, 0x12340000⟩ ∧
    ¬ (⟨8, 0x12340000⟩ : Pfx).wf 32 ∧
    (⟨24, 0x0000FF00⟩ : Pfx).wf 32 ∧
    decodeNLRI ⟨24, 0x0000FF00⟩ [16, 0x0A, 0x00] =
      some ⟨16, 0x0A00FF00⟩ ∧
    ¬ (⟨16, 0x0A00FF00⟩ : Pfx).wf 32 := by decide

theorem C8_unmarshal_amended_witness :
    (SetIPv4 (.v4 0x0A0000FF) 16 = some ⟨16, 0x0A000000⟩ ∧
      (⟨16, 0x0A000000⟩ : Pfx).wf 32) ∧
    (decodeNLRI ⟨24, 0x0000FF00⟩ [16, 0x0A, 0x00] =
        some ⟨16, 0x0A00FF00⟩ ∧
      (⟨16, 0x0A00FF00⟩ : Pfx).nbits = 16 ∧
      (⟨16, 0x0A00FF00⟩ : Pfx).addr =
        (⟨24, 0x0000FF00⟩ : Pfx).addr |||
          decodeNLRIAux 0 [0x0A, 0x00] 0) ∧
    ((8 : Nat) ≤ 32 ∧
      decodeNLRIAux 0 [0x12] 0 &&& gmask 32 8 = decodeNLRIAux 0 [0x12] 0 ∧
      decodeNLRIAux 0 [0x12] 0 < 2 ^ 32 ∧
      decodeNLRI ⟨0, 0⟩ [8, 0x12] = some ⟨8, 0x12000000⟩ ∧
      (⟨8, 0x12000000⟩ : Pfx).wf 32) :=
  ⟨⟨by decide,
     C8_unmarshal_amended.1 (.v4 0x0A0000FF) 16 ⟨16, 0x0A000000⟩
       (by decide)⟩,
   ⟨by decide,
     C8_unmarshal_amended.2.1 ⟨24, 0x0000FF00⟩ 16 [0x0A, 0x00]
       ⟨16, 0x0A00FF00⟩ (by decide)⟩,
   ⟨by decide, by decide, by decide, by decide,
     C8_unmarshal_amended.2.2 8 [0x12] ⟨8, 0x12000000⟩ (by decide)
       (by decide) (by decide) (by decide)⟩⟩

/-- C9: for every cursor whose index is in range — if the current address
equals the last address of the current prefix and the index is the last
one, `Next()` returns nil and leaves the cursor unchanged (so repeated
calls keep returning nil); if the current address equals the last address
and the index is not the last one, `Next()` advances to the first address
of `ps[i+1]` and returns that position; otherwise `Next()` increments the
current address by one and returns the new position. -/
theorem C9_cursor_next (c : Cursor) (hpi : c.pi < c.ps.length) :
    (v6cmp c.curr c.last = 0 → c.pi = c.ps.length - 1 →
      CursorNext c = some (none, c)) ∧
    (v6cmp c.curr c.last = 0 → c.pi ≠ c.ps.length - 1 →
      ∃ P, c.ps[c.pi + 1]? = some P ∧
        CursorNext c = some (some (ipToV6Int (pfxIP P).to16, P),
          { c with
              pi := c.pi + 1
              curr := ipToV6Int (pfxIP P).to16
              last := cursorLast P })) ∧
    (v6cmp c.curr c.last ≠ 0 →
      ∃ P, c.ps[c.pi]? = some P ∧
        CursorNext c = some (some (v6incr c.curr, P),
          { c with curr := v6incr c.curr })) := by
  refine ⟨?_, ?_, ?_⟩
  · intro h1 h2
    rw [CursorNext, if_pos h1, if_pos h2]
  · intro h1 h2
    have hlt : c.pi + 1 < c.ps.length := by omega
    have hget : c.ps[c.pi + 1]? = some (c.ps.get ⟨c.pi + 1, hlt⟩) := by
      rw [List.getElem?_eq_getElem hlt]
      rfl
    refine ⟨c.ps.get ⟨c.pi + 1, hlt⟩, hget, ?_⟩
    rw [CursorNext, if_pos h1, if_neg h2, cursorNextState, hget]
    show (cursorPos _).map _ = _
    rw [cursorPos]
    have hget2 : ({ c with
        pi := c.pi + 1
        curr := ipToV6Int (pfxIP (c.ps.get ⟨c.pi + 1, hlt⟩)).to16
        last := cursorLast (c.ps.get ⟨c.pi + 1, hlt⟩) } : Cursor).ps[
        ({ c with
          pi := c.pi + 1
          curr := ipToV6Int (pfxIP (c.ps.get ⟨c.pi + 1, hlt⟩)).to16
          last := cursorLast (c.ps.get ⟨c.pi + 1, hlt⟩) } : Cursor).pi]? =
        some (c.ps.get ⟨c.pi + 1, hlt⟩) := hget
    rw [hget2]
    rfl
  · intro h1
    have hget : c.ps[c.pi]? = some (c.ps.get ⟨c.pi, hpi⟩) := by
      rw [List.getElem?_eq_getElem hpi]
      rfl
    refine ⟨c.ps.get ⟨c.pi, hpi⟩, hget, ?_⟩
    rw [CursorNext, if_neg h1]
    show (cursorPos _).map _ = _
    rw [cursorPos]
    have hget2 : ({ c with curr := v6incr c.curr } : Cursor).ps[
        ({ c with curr := v6incr c.curr } : Cursor).pi]? =
        some (c.ps.get ⟨c.pi, hpi⟩) := hget
    rw [hget2]
    rfl

theorem C9_cursor_next_witness :
    (0 : Nat) < 2 ∧
    v6cmp ⟨0, 0xffff <<< 32 ||| 0x0A000001⟩
      ⟨0, 0xffff <<< 32 ||| 0x0A000001⟩ = 0 ∧
    (0 : Nat) ≠ 2 - 1 ∧
    ∃ P, ([.v4 ⟨31, 0x0A000000⟩, .v4 ⟨24, 0x0A010000⟩] :
        List IPPfx)[(0 : Nat) + 1]? = some P ∧
      CursorNext ⟨⟨0, 0xffff <<< 32 ||| 0x0A000001⟩,
          ⟨0, 0xffff <<< 32 ||| 0x0A000001⟩, 0,
          [.v4 ⟨31, 0x0A000000⟩, .v4 ⟨24, 0x0A010000⟩]⟩ =
        some (some (ipToV6Int (pfxIP P).to16, P),
          ⟨ipToV6Int (pfxIP P).to16, cursorLast P, 0 + 1,
            [.v4 ⟨31, 0x0A000000⟩, .v4 ⟨24, 0x0A010000⟩]⟩) :=
  ⟨by decide, by decide, by decide,
   (C9_cursor_next
     ⟨⟨0, 0xffff <<< 32 ||| 0x0A000001⟩,
      ⟨0, 0xffff <<< 32 ||| 0x0A000001⟩, 0,
      [.v4 ⟨31, 0x0A000000⟩, .v4 ⟨24, 0x0A010000⟩]⟩
     (by decide)).2.1 (by decide) (by decide)⟩

/-- C10: `Aggregate` does not leave the caller's list unchanged.  For the
input `[10.0.1.0/24, 10.0.0.0/24]` the in-place sort of `sortAndDedup`
reorders the caller's backing array to `[10.0.0.0/24, 10.0.1.0/24]`,
which differs from the input. -/
theorem C10_aggregate_frame :
    AggregateBacking [.v4 ⟨24, 0x0A000100⟩, .v4 ⟨24, 0x0A000000⟩] =
      [.v4 ⟨24, 0x0A000000⟩, .v4 ⟨24, 0x0A000100⟩] ∧
    AggregateBacking [.v4 ⟨24, 0x0A000100⟩, .v4 ⟨24, 0x0A000000⟩] ≠
      [.v4 ⟨24, 0x0A000100⟩, .v4 ⟨24, 0x0A000000⟩] := by decide
